import Mathlib

/-!
Verification of the dependency-aware task scheduler and plan validator of the
`claude-agentic-workflow` repository.

The definitions below are a shallow embedding of the Python sources:

* `scripts/orchestration/workflow-orchestrator.py`, method
  `WorkflowOrchestrator._execute_implementation_phase` (the scheduler loop,
  readiness computation, bounded batch execution and outcome application),
  together with the `Task` dataclass and the `TaskStatus` enum;
* `hooks/validation/plan-validation.py` (`validate_plan_structure`,
  `validate_phase_structure`, `validate_task_structure`,
  `check_dependency_cycles`, and the error aggregation of `main`).

Python's mutable objects are rendered as explicit state passing.  Fields of
the `Task` dataclass that the scheduler never branches on (title, description,
assigned agent, effort estimate, wall-clock timestamps, result payload) are
omitted from the embedding; the scheduler reads and writes only `task_id`,
`dependencies`, `status` and `error`.  Wall-clock time and the `asyncio`
runtime are outside the embedding: `asyncio.gather(..., return_exceptions=True)`
returns one outcome per batch element in batch order, which is modelled by an
outcome oracle `String → TaskResult` consulted per task id.
-/

namespace AgenticWorkflow

/-- `TaskStatus` enum of `workflow-orchestrator.py`. -/
inductive TaskStatus where
  | pending
  | in_progress
  | completed
  | failed
  | blocked
deriving DecidableEq, Repr

/-- The `Task` dataclass of `workflow-orchestrator.py`, restricted to the
fields the implementation phase reads or writes (`task_id`, `dependencies`,
`status`, `error`). -/
structure Task where
  task_id : String
  dependencies : List String
  status : TaskStatus := TaskStatus.pending
  error : Option String := none
deriving DecidableEq, Repr

/-- One element of the `batch_results` list produced by
`asyncio.gather(..., return_exceptions=True)` in
`_execute_implementation_phase`: either a raised exception (carried as its
string rendering) or the agent's response dict, of which the scheduler reads
the `"status"` key and the optional `"error"` key. -/
inductive TaskResult where
  | exn (msg : String)
  | response (status : String) (error : Option String)
deriving DecidableEq, Repr

/-- A `TaskResult` that the scheduler treats as success: not an exception and
with `result["status"] == "success"`. -/
def TaskResult.isSuccess : TaskResult → Bool
  | .exn _ => false
  | .response s _ => s == "success"

/-- The mutable loop state of `_execute_implementation_phase`:
`completed_tasks`, `failed_tasks` and `remaining_tasks`. -/
structure PhaseState where
  completed_tasks : List Task
  failed_tasks : List Task
  remaining_tasks : List Task
deriving DecidableEq, Repr

/-- `[t.task_id for t in completed_tasks]`: the completed-id list the
readiness test consults. -/
def completedIds (tasks : List Task) : List String :=
  tasks.map (fun t => t.task_id)

/-- The readiness computation of `_execute_implementation_phase`:
`ready_tasks = [task for task in remaining_tasks if all(dep in completedIds
for dep in task.dependencies)]`. -/
def readyTasks (remaining : List Task) (ids : List String) : List Task :=
  remaining.filter (fun t => t.dependencies.all (fun d => ids.contains d))

/-- `remaining_tasks.remove(task)`: CPython removes the first list element
equal to `task`; the element removed is the very object that was executed,
identified here by its task id (the loop draws batch elements from
`remaining_tasks` itself). -/
def removeTask (remaining : List Task) (id : String) : List Task :=
  remaining.eraseP (fun t => t.task_id == id)

/-- The per-outcome branch of the result-processing loop of
`_execute_implementation_phase` (lines 279-296): remove the task from
`remaining_tasks`, then append it to `completed_tasks` (Success) or to
`failed_tasks` (exception, or response whose status is not `"success"`). -/
def applyOutcome (st : PhaseState) (task : Task) (result : TaskResult) : PhaseState :=
  let rem := removeTask st.remaining_tasks task.task_id
  match result with
  | .exn msg =>
      { st with remaining_tasks := rem,
                failed_tasks := st.failed_tasks ++
                  [{ task with status := TaskStatus.failed, error := some msg }] }
  | .response s e =>
      if s == "success" then
        { st with remaining_tasks := rem,
                  completed_tasks := st.completed_tasks ++
                    [{ task with status := TaskStatus.completed }] }
      else
        { st with remaining_tasks := rem,
                  failed_tasks := st.failed_tasks ++
                    [{ task with status := TaskStatus.failed,
                                 error := some (e.getD "Unknown error") }] }

/-- The `for task, result in zip(batch_tasks, batch_results)` loop: outcomes
are applied in batch order, one outcome per batch element, each drawn from the
outcome oracle at the task's id. -/
def processBatch (st : PhaseState) (batch : List Task)
    (outcomes : String → TaskResult) : PhaseState :=
  batch.foldl (fun s t => applyOutcome s t (outcomes t.task_id)) st

/-- The `while remaining_tasks:` loop of `_execute_implementation_phase`.
`fuel` bounds the number of iterations; every call site supplies at least
`remaining_tasks.length + 1`, which is enough because each productive
iteration removes at least one task (and on Python's side the loop either
terminates likewise or `break`s).  An iteration computes the ready set,
`break`s when it is empty (tasks are left untouched — nothing is marked
`BLOCKED`), and otherwise executes the first `limit` ready tasks as one wave
(`batch_tasks = ready_tasks[:max_concurrent]`). -/
def implementationLoop (limit : Nat) (outcomes : String → TaskResult) :
    Nat → PhaseState → PhaseState
  | 0, st => st
  | fuel + 1, st =>
      if st.remaining_tasks = [] then st
      else
        if readyTasks st.remaining_tasks (completedIds st.completed_tasks) = [] then st
        else implementationLoop limit outcomes fuel
               (processBatch st
                 ((readyTasks st.remaining_tasks
                    (completedIds st.completed_tasks)).take limit) outcomes)

/-- The wave groupings of one run: the successive `batch_tasks` lists chosen
by `implementationLoop`, in order. -/
def implementationWaves (limit : Nat) (outcomes : String → TaskResult) :
    Nat → PhaseState → List (List Task)
  | 0, _ => []
  | fuel + 1, st =>
      if st.remaining_tasks = [] then []
      else
        if readyTasks st.remaining_tasks (completedIds st.completed_tasks) = [] then []
        else ((readyTasks st.remaining_tasks
                 (completedIds st.completed_tasks)).take limit) ::
               implementationWaves limit outcomes fuel
                 (processBatch st
                   ((readyTasks st.remaining_tasks
                      (completedIds st.completed_tasks)).take limit) outcomes)

/-- The result dict returned by `_execute_implementation_phase` (lines
298-305), restricted to the fields the claims are about (`task_results`,
a mirror of `completed_tasks`, is omitted). -/
structure ImplResult where
  status : String
  completed_tasks : List Task
  failed_tasks : List Task
  total_tasks : Nat
  success_rate : ℚ
deriving DecidableEq, Repr

/-- `_execute_implementation_phase` for a given task list, concurrency limit
(`config["max_concurrent_agents"]`) and outcome oracle.  The final
`success_rate` expression divides by `len(plan.tasks)` unguarded; on the
empty task list CPython raises `ZeroDivisionError` before the result dict is
built, modelled by `none`. -/
def implementationPhase (tasks : List Task) (limit : Nat)
    (outcomes : String → TaskResult) : Option ImplResult :=
  let final := implementationLoop limit outcomes (tasks.length + 1)
    { completed_tasks := [], failed_tasks := [], remaining_tasks := tasks }
  if tasks.length = 0 then none
  else some
    { status := if final.failed_tasks = [] then "completed" else "partial"
      completed_tasks := final.completed_tasks
      failed_tasks := final.failed_tasks
      total_tasks := tasks.length
      success_rate := (final.completed_tasks.length : ℚ) / (tasks.length : ℚ) * 100 }

/-! ### Plan validation (`hooks/validation/plan-validation.py`)

The hook consumes a parsed JSON/YAML plan.  Field *presence* is what the
structural checks test (`field not in plan_data`), so every field is an
`Option`; fields whose value is only tested for presence are carried as
`Option String`. -/

/-- One task dict inside a phase of the plan file. -/
structure TaskData where
  task_id : Option String := none
  title : Option String := none
  description : Option String := none
  assigned_agent : Option String := none
  success_criteria : Option (List String) := none
  estimated_effort : Option String := none
  dependencies : Option (List String) := none
deriving DecidableEq, Repr

/-- One phase dict of the plan file. -/
structure PhaseData where
  phase_id : Option String := none
  name : Option String := none
  tasks : Option (List TaskData) := none
deriving DecidableEq, Repr

/-- The top-level plan dict.  `architecture` and `risks` are only tested for
presence. -/
structure PlanData where
  plan_id : Option String := none
  phases : Option (List PhaseData) := none
  architecture : Option String := none
  risks : Option String := none
deriving DecidableEq, Repr

/-- A single-quote character, for rendering Python string reprs. -/
def sq : String := String.mk [Char.ofNat 39]

/-- Python `repr` of a list of strings, as interpolated into the
invalid-agent message. -/
def pyListRepr (l : List String) : String :=
  "[" ++ String.intercalate ", " (l.map (fun s => sq ++ s ++ sq)) ++ "]"

/-- `valid_agents` of `validate_task_structure`. -/
def validAgents : List String :=
  ["coder-frontend", "coder-backend", "coder-infra", "ui-reviewer", "code-reviewer"]

/-- `validate_task_structure(task, phase_index, task_index)`. -/
def validate_task_structure (task : TaskData) (phase_index task_index : Nat) :
    List String :=
  let pre := "Phase " ++ toString phase_index ++ ", Task " ++ toString task_index
  let missing := fun (name : String) (present : Bool) =>
    if present then ([] : List String)
    else [pre ++ ": Missing required field: " ++ name]
  missing "task_id" task.task_id.isSome ++
  missing "title" task.title.isSome ++
  missing "description" task.description.isSome ++
  missing "assigned_agent" task.assigned_agent.isSome ++
  missing "success_criteria" task.success_criteria.isSome ++
  missing "estimated_effort" task.estimated_effort.isSome ++
  (match task.assigned_agent with
   | some a =>
       if validAgents.contains a then []
       else [pre ++ ": Invalid agent " ++ sq ++ a ++ sq ++ ". Must be one of: " ++
             pyListRepr validAgents]
   | none => []) ++
  (match task.success_criteria with
   | some c => if c = [] then [pre ++ ": Success criteria must be a non-empty list"] else []
   | none => [])

/-- `validate_phase_structure(phase, phase_index)`. -/
def validate_phase_structure (phase : PhaseData) (phase_index : Nat) : List String :=
  let pre := "Phase " ++ toString phase_index
  let missing := fun (name : String) (present : Bool) =>
    if present then ([] : List String)
    else [pre ++ ": Missing required field: " ++ name]
  missing "phase_id" phase.phase_id.isSome ++
  missing "name" phase.name.isSome ++
  missing "tasks" phase.tasks.isSome ++
  (match phase.tasks with
   | some ts => (ts.enum.map (fun p => validate_task_structure p.2 phase_index p.1)).flatten
   | none => [])

/-- `validate_plan_structure(plan_data)`. -/
def validate_plan_structure (plan : PlanData) : List String :=
  let missing := fun (name : String) (present : Bool) =>
    if present then ([] : List String)
    else ["Missing required field: " ++ name]
  missing "plan_id" plan.plan_id.isSome ++
  missing "phases" plan.phases.isSome ++
  missing "architecture" plan.architecture.isSome ++
  missing "risks" plan.risks.isSome ++
  (match plan.phases with
   | some phs => (phs.enum.map (fun p => validate_phase_structure p.2 p.1)).flatten
   | none => [])

/-- The `task_dependencies` dict of `check_dependency_cycles`, as an
association list in first-insertion key order.  `dictSet` is one dict
assignment: it overwrites in place when the key exists (CPython keeps the
original position) and appends otherwise. -/
def dictSet (m : List (String × List String)) (k : String) (v : List String) :
    List (String × List String) :=
  if m.any (fun p => p.1 == k) then m.map (fun p => if p.1 == k then (k, v) else p)
  else m ++ [(k, v)]

/-- The graph-building pass of `check_dependency_cycles`: iterate phases and
tasks, and for each task with a truthy `task_id` (present and non-empty)
record `task_dependencies[task_id] = task.get('dependencies', [])`. -/
def buildDeps (plan : PlanData) : List (String × List String) :=
  (plan.phases.getD []).foldl (fun g ph =>
    (ph.tasks.getD []).foldl (fun g task =>
      match task.task_id with
      | some id => if id = "" then g else dictSet g id (task.dependencies.getD [])
      | none => g) g) []

/-- `task_dependencies.get(node, [])`. -/
def depsOf (g : List (String × List String)) (node : String) : List String :=
  match g.find? (fun p => p.1 == node) with
  | some p => p.2
  | none => []

/-- The two mutable sets shared by `has_cycle` and the outer loop of
`check_dependency_cycles` (Python `set`s, modelled as membership lists; the
code inserts an element only after a failed membership test). -/
structure DfsState where
  visited : List String
  rec_stack : List String
deriving DecidableEq, Repr

/-- The `for dependency in task_dependencies.get(node, [])` loop inside
`has_cycle`: call `recur` on each dependency in order and return `True` at
the first cycle hit (Python's early `return True`, which skips the
`rec_stack.remove` cleanup of every frame it unwinds). -/
def depsLoop (recur : String → DfsState → Bool × DfsState) :
    List String → DfsState → Bool × DfsState
  | [], st => (false, st)
  | d :: ds, st =>
      if (recur d st).1 then recur d st
      else depsLoop recur ds (recur d st).2

/-- One unfolding of `has_cycle(node)`: the recursion-stack hit, the
visited-set hit, or the visit of a fresh node (mark visited and on-stack, walk
the dependencies, and pop the node from the recursion stack only on the
`False` path). -/
def hasCycleStep (g : List (String × List String))
    (recur : String → DfsState → Bool × DfsState)
    (node : String) (st : DfsState) : Bool × DfsState :=
  if node ∈ st.rec_stack then (true, st)
  else if node ∈ st.visited then (false, st)
  else
    if (depsLoop recur (depsOf g node) ⟨node :: st.visited, node :: st.rec_stack⟩).1 then
      (true, (depsLoop recur (depsOf g node) ⟨node :: st.visited, node :: st.rec_stack⟩).2)
    else
      (false,
        ⟨(depsLoop recur (depsOf g node) ⟨node :: st.visited, node :: st.rec_stack⟩).2.visited,
         (depsLoop recur (depsOf g node)
            ⟨node :: st.visited, node :: st.rec_stack⟩).2.rec_stack.erase node⟩)

/-- `has_cycle`, with a recursion-depth budget.  Python needs none: every
nested call visits a fresh node, so the depth never exceeds the number of
distinct node names; all call sites pass `dfsFuel`, which is larger.  Written
with `Nat.rec` so that the definition reduces inside the kernel. -/
def hasCycleAux (g : List (String × List String)) (fuel : Nat) :
    String → DfsState → Bool × DfsState :=
  Nat.rec (motive := fun _ => String → DfsState → Bool × DfsState)
    (fun _ st => (false, st))
    (fun _ ih => hasCycleStep g ih)
    fuel

/-- Every node name occurring in the dependency dict (keys and values). -/
def allNames (g : List (String × List String)) : List String :=
  g.foldr (fun p acc => p.1 :: (p.2 ++ acc)) []

/-- A recursion-depth budget larger than the number of distinct node names. -/
def dfsFuel (g : List (String × List String)) : Nat :=
  (allNames g).dedup.length + 1

/-- The error message appended for a DFS root whose traversal found a cycle. -/
def cycleMsg (id : String) : String :=
  "Circular dependency detected involving task: " ++ id

/-- The scan of `check_dependency_cycles` over the built dependency dict:
run `has_cycle` from every not-yet-visited key in insertion order, sharing
`visited`/`rec_stack` across calls, collecting one error per root whose
traversal reports a cycle (`if task_id not in visited and has_cycle(task_id)`). -/
def checkCyclesOf (g : List (String × List String)) : List String :=
  (g.foldl (fun (acc : List String × DfsState) p =>
      if p.1 ∈ acc.2.visited then acc
      else
        if (hasCycleAux g (dfsFuel g) p.1 acc.2).1 then
          (acc.1 ++ [cycleMsg p.1], (hasCycleAux g (dfsFuel g) p.1 acc.2).2)
        else (acc.1, (hasCycleAux g (dfsFuel g) p.1 acc.2).2))
    ([], ⟨[], []⟩)).1

/-- `check_dependency_cycles(plan_data)`: build the dependency dict, then
scan it for cycles. -/
def check_dependency_cycles (plan : PlanData) : List String :=
  checkCyclesOf (buildDeps plan)

/-- The full error list assembled by `main` before deciding `allow`:
`validate_plan_structure` errors followed by `check_dependency_cycles`
errors. -/
def validationErrors (plan : PlanData) : List String :=
  validate_plan_structure plan ++ check_dependency_cycles plan

/-! ### Statement-level vocabulary

Definitions below express the spec's graph-theoretic language used by the
claims (cycles, duplicate ids, unresolved references); they are used to state
theorems, never inside the embedded code. -/

/-- The dependency edge relation of a built graph: `x` depends on `y`. -/
def edgeOf (g : List (String × List String)) (x y : String) : Prop :=
  y ∈ depsOf g x

instance (g : List (String × List String)) (x y : String) :
    Decidable (edgeOf g x y) :=
  inferInstanceAs (Decidable (y ∈ depsOf g x))

/-- Reachability along dependency edges (zero or more steps). -/
def Reaches (g : List (String × List String)) : String → String → Prop :=
  Relation.ReflTransGen (edgeOf g)

/-- `x` lies on a dependency cycle: one edge out of `x` returns to `x`. -/
def OnCycle (g : List (String × List String)) (x : String) : Prop :=
  ∃ y, edgeOf g x y ∧ Reaches g y x

/-- The recursion stack as maintained by a well-nested DFS run: consecutive
stack entries are linked by dependency edges (each entry below depends on the
one above it). -/
def ChainStack (g : List (String × List String)) : List String → Prop
  | [] => True
  | [_] => True
  | a :: b :: l => edgeOf g b a ∧ ChainStack g (b :: l)

/-- The stack's top (the caller, if any) depends on the node now being
visited. -/
def LinkedTo (g : List (String × List String)) (stack : List String)
    (node : String) : Prop :=
  match stack with
  | [] => True
  | h :: _ => edgeOf g h node

/-- A finish-order list: every dependency edge out of an entry lands strictly
later in the list.  The finished part of a cycle-free DFS run is of this
shape, which is what makes the visited set cycle-free. -/
def GoodFin (g : List (String × List String)) : List String → Prop
  | [] => True
  | v :: rest => (∀ w, edgeOf g v w → w ∈ rest) ∧ GoodFin g rest

/-- How many node names the DFS can still newly visit. -/
def unvisitedCount (g : List (String × List String)) (st : DfsState) : Nat :=
  ((allNames g).dedup.filter (fun x => decide (x ∉ st.visited))).length

/-- All task dicts of a plan, across phases, in file order. -/
def planTasks (plan : PlanData) : List TaskData :=
  ((plan.phases.getD []).map (fun ph => ph.tasks.getD [])).flatten

/-- All task ids declared by a plan's tasks. -/
def planTaskIds (plan : PlanData) : List String :=
  (planTasks plan).filterMap (fun t => t.task_id)

/-- The plan declares the same task id twice (the duplicate-id defect the
spec says validation reports). -/
def HasDuplicateId (plan : PlanData) : Prop :=
  ¬ (planTaskIds plan).Nodup

/-- Some task references a dependency id that no task in the plan declares
(the unresolved-reference defect the spec says validation reports). -/
def HasUnresolvedRef (plan : PlanData) : Prop :=
  ∃ t ∈ planTasks plan, ∃ d ∈ t.dependencies.getD [], d ∉ planTaskIds plan

instance (plan : PlanData) : Decidable (HasDuplicateId plan) :=
  inferInstanceAs (Decidable (¬ (planTaskIds plan).Nodup))

instance (plan : PlanData) : Decidable (HasUnresolvedRef plan) :=
  inferInstanceAs (Decidable
    (∃ t ∈ planTasks plan, ∃ d ∈ t.dependencies.getD [], d ∉ planTaskIds plan))

/-! ### Concrete inputs used by counterexamples and witnesses -/

/-- Task `A`, no dependencies. -/
def taskA : Task := { task_id := "A", dependencies := [] }

/-- Task `B` depending on `A`. -/
def taskBdepA : Task := { task_id := "B", dependencies := ["A"] }

/-- Task `B`, no dependencies. -/
def taskB : Task := { task_id := "B", dependencies := [] }

/-- Task `C` depending on `A` and `B`. -/
def taskC : Task := { task_id := "C", dependencies := ["A", "B"] }

/-- Outcome oracle making every task succeed (the source's mock agent). -/
def outcomesAllSuccess : String → TaskResult :=
  fun _ => TaskResult.response "success" none

/-- Outcome oracle failing task `A` and succeeding everywhere else. -/
def outcomesFailA : String → TaskResult :=
  fun id => if id = "A" then TaskResult.response "error" (some "boom")
            else TaskResult.response "success" none

/-- A task dict with every required field present and a valid agent. -/
def wfTaskData (id : String) (deps : List String) : TaskData :=
  { task_id := some id, title := some "t", description := some "d",
    assigned_agent := some "coder-backend", success_criteria := some ["done"],
    estimated_effort := some "1d", dependencies := some deps }

/-- A structurally well-formed plan whose only defects are a duplicated task
id `A` and a reference to the undeclared id `ghost`. -/
def planDup : PlanData :=
  { plan_id := some "p1", architecture := some "arch", risks := some "risks",
    phases := some [{ phase_id := some "ph1", name := some "phase one",
                      tasks := some [wfTaskData "A" [], wfTaskData "A" [],
                                     wfTaskData "B" ["ghost"]] }] }

/-- A structurally well-formed plan whose dependency graph is
`A → B, B → C, C → B`: the cycle is `B → C → B`, and `A` merely reaches it. -/
def planCyc : PlanData :=
  { plan_id := some "p2", architecture := some "arch", risks := some "risks",
    phases := some [{ phase_id := some "ph1", name := some "phase one",
                      tasks := some [wfTaskData "A" ["B"], wfTaskData "B" ["C"],
                                     wfTaskData "C" ["B"]] }] }

/-! ### Scheduler lemmas -/

/-- Readiness membership: a task is in the ready list iff it is remaining and
every dependency id is a completed id. -/
theorem mem_readyTasks {t : Task} {remaining : List Task} {ids : List String} :
    t ∈ readyTasks remaining ids ↔ t ∈ remaining ∧ ∀ d ∈ t.dependencies, d ∈ ids := by
  simp [readyTasks, List.mem_filter, List.all_eq_true, List.contains, List.elem_iff]

/-- The ready list is a sublist of `remaining` (insertion order preserved). -/
theorem readyTasks_sublist (remaining : List Task) (ids : List String) :
    (readyTasks remaining ids).Sublist remaining :=
  List.filter_sublist remaining

theorem applyOutcome_remaining (st : PhaseState) (t : Task) (r : TaskResult) :
    (applyOutcome st t r).remaining_tasks = removeTask st.remaining_tasks t.task_id := by
  cases r with
  | exn m => rfl
  | response s e =>
      simp only [applyOutcome]
      split <;> rfl

theorem applyOutcome_of_success {r : TaskResult} (st : PhaseState) (t : Task)
    (h : r.isSuccess = true) :
    (applyOutcome st t r).completed_tasks
        = st.completed_tasks ++ [{ t with status := TaskStatus.completed }] ∧
    (applyOutcome st t r).failed_tasks = st.failed_tasks := by
  cases r with
  | exn m => simp [TaskResult.isSuccess] at h
  | response s e =>
      simp only [TaskResult.isSuccess] at h
      simp [applyOutcome, h]

theorem applyOutcome_of_failure {r : TaskResult} (st : PhaseState) (t : Task)
    (h : r.isSuccess = false) :
    (applyOutcome st t r).completed_tasks = st.completed_tasks ∧
    ∃ e, (applyOutcome st t r).failed_tasks
        = st.failed_tasks ++ [{ t with status := TaskStatus.failed, error := some e }] := by
  cases r with
  | exn m => exact ⟨rfl, m, rfl⟩
  | response s e =>
      simp only [TaskResult.isSuccess] at h
      refine ⟨?_, e.getD "Unknown error", ?_⟩ <;> simp [applyOutcome, h]

/-- Each outcome application grows `completed_tasks ++ failed_tasks` by
exactly one record. -/
theorem applyOutcome_count (st : PhaseState) (t : Task) (r : TaskResult) :
    (applyOutcome st t r).completed_tasks.length + (applyOutcome st t r).failed_tasks.length
      = st.completed_tasks.length + st.failed_tasks.length + 1 := by
  cases hr : r.isSuccess with
  | true =>
      obtain ⟨h1, h2⟩ := applyOutcome_of_success st t hr
      simp [h1, h2]; omega
  | false =>
      obtain ⟨h1, e, h2⟩ := applyOutcome_of_failure st t hr
      simp [h1, h2]; omega

/-- `completed_tasks` only grows across a batch. -/
theorem processBatch_completed_append (batch : List Task) (o : String → TaskResult) :
    ∀ st : PhaseState, ∃ l, (processBatch st batch o).completed_tasks
        = st.completed_tasks ++ l := by
  induction batch with
  | nil => exact fun st => ⟨[], by simp [processBatch]⟩
  | cons t ts ih =>
      intro st
      obtain ⟨l, hl⟩ := ih (applyOutcome st t (o t.task_id))
      cases hr : (o t.task_id).isSuccess with
      | true =>
          obtain ⟨h1, _⟩ := applyOutcome_of_success st t hr
          exact ⟨{ t with status := TaskStatus.completed } :: l, by
            simpa [processBatch, h1] using hl⟩
      | false =>
          obtain ⟨h1, _, _⟩ := applyOutcome_of_failure st t hr
          exact ⟨l, by simpa [processBatch, h1] using hl⟩

/-- `failed_tasks` only grows across a batch. -/
theorem processBatch_failed_append (batch : List Task) (o : String → TaskResult) :
    ∀ st : PhaseState, ∃ l, (processBatch st batch o).failed_tasks
        = st.failed_tasks ++ l := by
  induction batch with
  | nil => exact fun st => ⟨[], by simp [processBatch]⟩
  | cons t ts ih =>
      intro st
      obtain ⟨l, hl⟩ := ih (applyOutcome st t (o t.task_id))
      cases hr : (o t.task_id).isSuccess with
      | true =>
          obtain ⟨_, h2⟩ := applyOutcome_of_success st t hr
          exact ⟨l, by simpa [processBatch, h2] using hl⟩
      | false =>
          obtain ⟨_, e, h2⟩ := applyOutcome_of_failure st t hr
          exact ⟨{ t with status := TaskStatus.failed, error := some e } :: l, by
            simpa [processBatch, h2] using hl⟩

/-- A batch task whose outcome is a success lands in `completed_tasks` in
state `COMPLETED`, whatever the other batch members' outcomes are. -/
theorem processBatch_success_mem {t : Task} {batch : List Task}
    (o : String → TaskResult) (ht : t ∈ batch) (hs : (o t.task_id).isSuccess = true) :
    ∀ st : PhaseState,
      { t with status := TaskStatus.completed } ∈ (processBatch st batch o).completed_tasks := by
  induction batch with
  | nil => cases ht
  | cons b bs ih =>
      intro st
      rcases List.mem_cons.mp ht with h | h
      · subst h
        obtain ⟨h1, _⟩ := applyOutcome_of_success st t hs
        obtain ⟨l, hl⟩ := processBatch_completed_append bs o (applyOutcome st t (o t.task_id))
        rw [processBatch, List.foldl_cons, ← processBatch, hl, h1]
        simp
      · exact ih h _

/-- A batch task whose outcome is a failure (exception, or non-success
response) lands in `failed_tasks` in state `FAILED`, whatever the other batch
members' outcomes are. -/
theorem processBatch_failure_mem {t : Task} {batch : List Task}
    (o : String → TaskResult) (ht : t ∈ batch) (hs : (o t.task_id).isSuccess = false) :
    ∀ st : PhaseState, ∃ e,
      { t with status := TaskStatus.failed, error := some e }
        ∈ (processBatch st batch o).failed_tasks := by
  induction batch with
  | nil => cases ht
  | cons b bs ih =>
      intro st
      rcases List.mem_cons.mp ht with h | h
      · subst h
        obtain ⟨_, e, h2⟩ := applyOutcome_of_failure st t hs
        obtain ⟨l, hl⟩ := processBatch_failed_append bs o (applyOutcome st t (o t.task_id))
        refine ⟨e, ?_⟩
        rw [processBatch, List.foldl_cons, ← processBatch, hl, h2]
        simp
      · exact ih h _

/-- The remaining list after a batch is a sublist of the one before it. -/
theorem processBatch_remaining_sublist (batch : List Task) (o : String → TaskResult) :
    ∀ st : PhaseState,
      (processBatch st batch o).remaining_tasks.Sublist st.remaining_tasks := by
  induction batch with
  | nil => exact fun st => by simp [processBatch]
  | cons t ts ih =>
      intro st
      have h1 : (processBatch (applyOutcome st t (o t.task_id)) ts o).remaining_tasks.Sublist
          (applyOutcome st t (o t.task_id)).remaining_tasks := ih _
      have h2 : (applyOutcome st t (o t.task_id)).remaining_tasks.Sublist
          st.remaining_tasks := by
        rw [applyOutcome_remaining]
        exact List.eraseP_sublist _
      have h3 : (processBatch st (t :: ts) o).remaining_tasks.Sublist
          (applyOutcome st t (o t.task_id)).remaining_tasks := by
        simpa [processBatch] using h1
      exact h3.trans h2

/-- Every record in `completed_tasks` carries state `COMPLETED`, and every
record in `failed_tasks` carries state `FAILED`, if that held before the
batch. -/
theorem processBatch_status_inv (batch : List Task) (o : String → TaskResult) :
    ∀ st : PhaseState,
      (∀ x ∈ st.completed_tasks, x.status = TaskStatus.completed) →
      (∀ x ∈ st.failed_tasks, x.status = TaskStatus.failed) →
      (∀ x ∈ (processBatch st batch o).completed_tasks, x.status = TaskStatus.completed) ∧
      (∀ x ∈ (processBatch st batch o).failed_tasks, x.status = TaskStatus.failed) := by
  induction batch with
  | nil => exact fun st hc hf => by simpa [processBatch] using ⟨hc, hf⟩
  | cons t ts ih =>
      intro st hc hf
      have hstep : (∀ x ∈ (applyOutcome st t (o t.task_id)).completed_tasks,
            x.status = TaskStatus.completed) ∧
          (∀ x ∈ (applyOutcome st t (o t.task_id)).failed_tasks,
            x.status = TaskStatus.failed) := by
        cases hr : (o t.task_id).isSuccess with
        | true =>
            obtain ⟨h1, h2⟩ := applyOutcome_of_success st t hr
            constructor
            · intro x hx
              rw [h1] at hx
              rcases List.mem_append.mp hx with h | h
              · exact hc x h
              · simp at h; simp [h]
            · intro x hx; rw [h2] at hx; exact hf x hx
        | false =>
            obtain ⟨h1, e, h2⟩ := applyOutcome_of_failure st t hr
            constructor
            · intro x hx; rw [h1] at hx; exact hc x hx
            · intro x hx
              rw [h2] at hx
              rcases List.mem_append.mp hx with h | h
              · exact hf x h
              · simp at h; simp [h]
      have := ih (applyOutcome st t (o t.task_id)) hstep.1 hstep.2
      simpa [processBatch] using this

/-- Ids of a task list. -/
def taskIds (l : List Task) : List String :=
  l.map (fun t => t.task_id)

theorem mem_taskIds {l : List Task} {id : String} :
    id ∈ taskIds l ↔ ∃ t ∈ l, t.task_id = id := by
  simp [taskIds]

/-- Removing a present id shortens the remaining list by exactly one. -/
theorem removeTask_length {rem : List Task} {id : String} (h : id ∈ taskIds rem) :
    (removeTask rem id).length + 1 = rem.length := by
  obtain ⟨t, ht, hid⟩ := mem_taskIds.mp h
  have hlen := List.length_eraseP_of_mem (p := fun t : Task => t.task_id == id) ht
    (by simp [hid])
  have hpos : 0 < rem.length := List.length_pos.mpr (List.ne_nil_of_mem ht)
  simp only [removeTask, hlen]
  omega

/-- Removing one id keeps every task with a different id. -/
theorem mem_removeTask_of_ne {rem : List Task} {x : Task} {id : String}
    (hx : x ∈ rem) (hne : x.task_id ≠ id) : x ∈ removeTask rem id := by
  have hnp : ¬ ((fun t : Task => t.task_id == id) x = true) := by simpa using hne
  exact (List.mem_eraseP_of_neg (a := x) (l := rem) hnp).mpr hx

/-- A sublist none of whose tasks has the removed id survives the removal. -/
theorem sublist_eraseP_of_forall_not {α : Type} {p : α → Bool} :
    ∀ {l l' : List α}, l'.Sublist l → (∀ x ∈ l', p x = false) →
      l'.Sublist (l.eraseP p) := by
  intro l l' h
  induction h with
  | slnil => exact fun _ => List.nil_sublist _
  | cons a h ih =>
      intro hall
      rw [List.eraseP_cons]
      cases hp : p a with
      | true => simpa [hp] using h
      | false => simpa [hp] using List.Sublist.cons a (ih hall)
  | cons₂ a h ih =>
      intro hall
      have hpa : p a = false := hall a (List.mem_cons_self a _)
      rw [List.eraseP_cons, hpa]
      exact List.Sublist.cons₂ a (ih fun x hx => hall x (List.mem_cons_of_mem a hx))

/-- Tasks whose ids are disjoint from the batch survive the whole batch, in
order and unchanged. -/
theorem processBatch_keeps_sublist (batch : List Task) (o : String → TaskResult) :
    ∀ (st : PhaseState) (l' : List Task),
      l'.Sublist st.remaining_tasks →
      (∀ x ∈ l', ∀ b ∈ batch, x.task_id ≠ b.task_id) →
      l'.Sublist (processBatch st batch o).remaining_tasks := by
  induction batch with
  | nil => exact fun st l' h _ => by simpa [processBatch] using h
  | cons t ts ih =>
      intro st l' h hdisj
      have h1 : l'.Sublist (applyOutcome st t (o t.task_id)).remaining_tasks := by
        rw [applyOutcome_remaining]
        refine sublist_eraseP_of_forall_not h fun x hx => ?_
        have := hdisj x hx t (List.mem_cons_self t ts)
        simpa using this
      have h2 := ih (applyOutcome st t (o t.task_id)) l' h1
        (fun x hx b hb => hdisj x hx b (List.mem_cons_of_mem t hb))
      simpa [processBatch] using h2

/-- Count conservation across one batch, under distinct remaining ids: the
batch moves exactly its own records from `remaining_tasks` into
`completed_tasks`/`failed_tasks`. -/
theorem processBatch_counts (o : String → TaskResult) :
    ∀ (batch : List Task) (st : PhaseState),
      (taskIds batch).Nodup →
      (∀ t ∈ batch, t.task_id ∈ taskIds st.remaining_tasks) →
      (taskIds st.remaining_tasks).Nodup →
      (processBatch st batch o).completed_tasks.length
          + (processBatch st batch o).failed_tasks.length
        = st.completed_tasks.length + st.failed_tasks.length + batch.length ∧
      (processBatch st batch o).remaining_tasks.length + batch.length
        = st.remaining_tasks.length ∧
      (taskIds (processBatch st batch o).remaining_tasks).Nodup := by
  intro batch
  induction batch with
  | nil =>
      intro st _ _ hnr
      refine ⟨by simp [processBatch], by simp [processBatch], by simpa [processBatch] using hnr⟩
  | cons t ts ih =>
      intro st hnb hmem hnr
      have hrem1 : (applyOutcome st t (o t.task_id)).remaining_tasks
          = removeTask st.remaining_tasks t.task_id :=
        applyOutcome_remaining st t _
      have htmem : t.task_id ∈ taskIds st.remaining_tasks :=
        hmem t (List.mem_cons_self t ts)
      have hlen1 : (applyOutcome st t (o t.task_id)).remaining_tasks.length + 1
          = st.remaining_tasks.length := by
        rw [hrem1]; exact removeTask_length htmem
      have hsub1 : (applyOutcome st t (o t.task_id)).remaining_tasks.Sublist
          st.remaining_tasks := by
        rw [hrem1]; exact List.eraseP_sublist _
      have hnr1 : (taskIds (applyOutcome st t (o t.task_id)).remaining_tasks).Nodup :=
        List.Nodup.sublist (hsub1.map (fun t : Task => t.task_id)) hnr
      have hnb1 : (taskIds ts).Nodup := by
        simpa [taskIds] using (List.nodup_cons.mp (by simpa [taskIds] using hnb)).2
      have htnotin : t.task_id ∉ taskIds ts :=
        (List.nodup_cons.mp (by simpa [taskIds] using hnb)).1
      have hmem1 : ∀ u ∈ ts, u.task_id ∈ taskIds
          (applyOutcome st t (o t.task_id)).remaining_tasks := by
        intro u hu
        obtain ⟨x, hx, hxid⟩ := mem_taskIds.mp (hmem u (List.mem_cons_of_mem t hu))
        have hne : x.task_id ≠ t.task_id := by
          intro hcontra
          exact htnotin (by
            rw [← hcontra, hxid]
            exact List.mem_map_of_mem (fun t => t.task_id) hu)
        exact mem_taskIds.mpr ⟨x, by rw [hrem1]; exact mem_removeTask_of_ne hx hne, hxid⟩
      obtain ⟨ih1, ih2, ih3⟩ := ih (applyOutcome st t (o t.task_id)) hnb1 hmem1 hnr1
      have hcount := applyOutcome_count st t (o t.task_id)
      have hPB : processBatch st (t :: ts) o
          = processBatch (applyOutcome st t (o t.task_id)) ts o := by
        simp [processBatch]
      rw [hPB]
      refine ⟨?_, ?_, ih3⟩
      · simp only [List.length_cons]
        omega
      · simp only [List.length_cons]
        omega

/-- The batch of one wave is a sublist of the remaining list. -/
theorem batch_sublist_remaining (remaining : List Task) (ids : List String) (limit : Nat) :
    ((readyTasks remaining ids).take limit).Sublist remaining :=
  (List.take_sublist limit _).trans (readyTasks_sublist remaining ids)

/-- Across the whole loop, the remaining list only loses elements and keeps
its order: the final remaining list is a sublist of the initial one. -/
theorem implementationLoop_remaining_sublist (limit : Nat) (o : String → TaskResult) :
    ∀ (fuel : Nat) (st : PhaseState),
      (implementationLoop limit o fuel st).remaining_tasks.Sublist st.remaining_tasks := by
  intro fuel
  induction fuel with
  | zero => exact fun st => List.Sublist.refl _
  | succ n ih =>
      intro st
      rw [implementationLoop]
      split
      · exact List.Sublist.refl _
      · split
        · exact List.Sublist.refl _
        · exact (ih _).trans (processBatch_remaining_sublist _ o st)

/-- Status invariant of the whole loop: completed records stay `COMPLETED`,
failed records stay `FAILED`. -/
theorem implementationLoop_status_inv (limit : Nat) (o : String → TaskResult) :
    ∀ (fuel : Nat) (st : PhaseState),
      (∀ x ∈ st.completed_tasks, x.status = TaskStatus.completed) →
      (∀ x ∈ st.failed_tasks, x.status = TaskStatus.failed) →
      (∀ x ∈ (implementationLoop limit o fuel st).completed_tasks,
        x.status = TaskStatus.completed) ∧
      (∀ x ∈ (implementationLoop limit o fuel st).failed_tasks,
        x.status = TaskStatus.failed) := by
  intro fuel
  induction fuel with
  | zero => exact fun st hc hf => ⟨hc, hf⟩
  | succ n ih =>
      intro st hc hf
      rw [implementationLoop]
      split
      · exact ⟨hc, hf⟩
      · split
        · exact ⟨hc, hf⟩
        · obtain ⟨hc1, hf1⟩ := processBatch_status_inv _ o st hc hf
          exact ih _ hc1 hf1

/-- Count conservation of the whole loop, under distinct task ids: no record
is duplicated or dropped, so `|completed| + |failed| + |remaining|` is
constant. -/
theorem implementationLoop_counts (limit : Nat) (o : String → TaskResult) :
    ∀ (fuel : Nat) (st : PhaseState),
      (taskIds st.remaining_tasks).Nodup →
      (implementationLoop limit o fuel st).completed_tasks.length
          + (implementationLoop limit o fuel st).failed_tasks.length
          + (implementationLoop limit o fuel st).remaining_tasks.length
        = st.completed_tasks.length + st.failed_tasks.length
          + st.remaining_tasks.length ∧
      (taskIds (implementationLoop limit o fuel st).remaining_tasks).Nodup := by
  intro fuel
  induction fuel with
  | zero => exact fun st h => ⟨rfl, h⟩
  | succ n ih =>
      intro st hnr
      rw [implementationLoop]
      split
      · exact ⟨rfl, hnr⟩
      · split
        · exact ⟨rfl, hnr⟩
        · have hbs : ((readyTasks st.remaining_tasks
              (completedIds st.completed_tasks)).take limit).Sublist
              st.remaining_tasks := batch_sublist_remaining _ _ _
          have hnb : (taskIds ((readyTasks st.remaining_tasks
              (completedIds st.completed_tasks)).take limit)).Nodup :=
            List.Nodup.sublist (hbs.map (fun t : Task => t.task_id)) hnr
          have hmem : ∀ t ∈ (readyTasks st.remaining_tasks
              (completedIds st.completed_tasks)).take limit,
              t.task_id ∈ taskIds st.remaining_tasks := by
            intro t ht
            exact List.mem_map_of_mem (fun t : Task => t.task_id) (hbs.subset ht)
          obtain ⟨hpb1, hpb2, hpb3⟩ := processBatch_counts o _ st hnb hmem hnr
          obtain ⟨ihc, ihn⟩ := ih _ hpb3
          exact ⟨by omega, ihn⟩

/-- If two outcome oracles agree on every batch member's id, the batch
produces identical states. -/
theorem processBatch_congr {o₁ o₂ : String → TaskResult} :
    ∀ (batch : List Task) (st : PhaseState),
      (∀ t ∈ batch, o₁ t.task_id = o₂ t.task_id) →
      processBatch st batch o₁ = processBatch st batch o₂ := by
  intro batch
  induction batch with
  | nil => exact fun st _ => rfl
  | cons t ts ih =>
      intro st h
      have ht := h t (List.mem_cons_self t ts)
      have hPB1 : processBatch st (t :: ts) o₁
          = processBatch (applyOutcome st t (o₁ t.task_id)) ts o₁ := by
        simp [processBatch]
      have hPB2 : processBatch st (t :: ts) o₂
          = processBatch (applyOutcome st t (o₂ t.task_id)) ts o₂ := by
        simp [processBatch]
      rw [hPB1, hPB2, ht]
      exact ih _ (fun u hu => h u (List.mem_cons_of_mem t hu))

/-- If two outcome oracles agree on the id of every remaining task, the loop
is oblivious to the difference: identical wave groupings and identical final
states. -/
theorem implementationLoop_congr {o₁ o₂ : String → TaskResult} (limit : Nat) :
    ∀ (fuel : Nat) (st : PhaseState),
      (∀ t ∈ st.remaining_tasks, o₁ t.task_id = o₂ t.task_id) →
      implementationLoop limit o₁ fuel st = implementationLoop limit o₂ fuel st ∧
      implementationWaves limit o₁ fuel st = implementationWaves limit o₂ fuel st := by
  intro fuel
  induction fuel with
  | zero => exact fun st _ => ⟨rfl, rfl⟩
  | succ n ih =>
      intro st h
      rw [implementationLoop, implementationLoop, implementationWaves,
        implementationWaves]
      split
      · exact ⟨rfl, rfl⟩
      · split
        · exact ⟨rfl, rfl⟩
        · have hbatch : ∀ t ∈ (readyTasks st.remaining_tasks
              (completedIds st.completed_tasks)).take limit,
              o₁ t.task_id = o₂ t.task_id := fun t ht =>
            h t ((batch_sublist_remaining _ _ _).subset ht)
          have hpb := processBatch_congr _ st hbatch
          rw [hpb]
          have hnext : ∀ t ∈ (processBatch st ((readyTasks st.remaining_tasks
              (completedIds st.completed_tasks)).take limit) o₂).remaining_tasks,
              o₁ t.task_id = o₂ t.task_id := fun t ht =>
            h t ((processBatch_remaining_sublist _ o₂ st).subset ht)
          obtain ⟨h1, h2⟩ := ih _ hnext
          exact ⟨h1, by rw [h2]⟩

/-- No remaining task carries the removed id afterwards, when remaining ids
are distinct. -/
theorem removeTask_not_mem {rem : List Task} {id : String}
    (h : (taskIds rem).Nodup) : id ∉ taskIds (removeTask rem id) := by
  intro hmem
  obtain ⟨x, hx, hxid⟩ := mem_taskIds.mp hmem
  by_cases hex : ∃ a ∈ rem, (fun t : Task => t.task_id == id) a = true
  · obtain ⟨a, ha, hpa⟩ := hex
    obtain ⟨c, l₁, l₂, hl₁, hpc, hdecomp, herase⟩ :=
      List.exists_of_eraseP (p := fun t : Task => t.task_id == id) ha hpa
    rw [removeTask, herase] at hx
    rcases List.mem_append.mp hx with h1 | h2
    · exact (hl₁ x h1) (by simp [hxid])
    · have hcid : c.task_id = id := by simpa using hpc
      rw [hdecomp] at h
      simp only [taskIds, List.map_append, List.map_cons] at h
      have hn2 := (List.nodup_append.mp h).2.1
      have hn3 := List.nodup_cons.mp hn2
      exact hn3.1 (by
        rw [hcid, ← hxid]
        exact List.mem_map_of_mem (fun t : Task => t.task_id) h2)
  · push_neg at hex
    have heq : removeTask rem id = rem :=
      List.eraseP_of_forall_not (by simpa using hex)
    rw [heq] at hx
    have := hex x hx
    simp [hxid] at this

/-! ### Scheduler claims -/

/-- C2: the readiness computation returns exactly the remaining tasks whose
every dependency id is among the completed ids (tasks with no dependencies
always qualify), and returns them as a sublist of `remaining` — i.e. in
`remaining`'s insertion order. -/
theorem readiness_spec (remaining : List Task) (ids : List String) :
    (∀ t, t ∈ readyTasks remaining ids ↔
        t ∈ remaining ∧ ∀ d ∈ t.dependencies, d ∈ ids) ∧
    (∀ t ∈ remaining, t.dependencies = [] → t ∈ readyTasks remaining ids) ∧
    (readyTasks remaining ids).Sublist remaining := by
  refine ⟨fun t => mem_readyTasks, fun t ht hdep => ?_, readyTasks_sublist remaining ids⟩
  exact mem_readyTasks.mpr ⟨ht, by simp [hdep]⟩

/-- C2 witness: with nothing completed, the dependency-free task `A` is
ready and `B` (depending on `A`) is not. -/
theorem readiness_spec_witness :
    taskA ∈ readyTasks [taskA, taskBdepA] [] ∧
    taskBdepA ∉ readyTasks [taskA, taskBdepA] [] := by
  constructor
  · exact (readiness_spec [taskA, taskBdepA] []).2.1 taskA (by decide) rfl
  · intro hmem
    have h := ((readiness_spec [taskA, taskBdepA] []).1 taskBdepA).mp hmem
    exact absurd (h.2 "A" (by decide)) (by decide)

/-- C3: applying one outcome removes the task from `remaining_tasks`; a
success appends it to `completed_tasks` in state `COMPLETED` (so its id joins
the completed ids), leaving `failed_tasks` unchanged; a failure appends it to
`failed_tasks` in state `FAILED` and leaves the completed ids unchanged.
Under distinct remaining ids the task's id is gone from `remaining_tasks`
afterwards. -/
theorem outcome_application_spec (st : PhaseState) (task : Task) (result : TaskResult) :
    (applyOutcome st task result).remaining_tasks
        = removeTask st.remaining_tasks task.task_id ∧
    (result.isSuccess = true →
      (applyOutcome st task result).completed_tasks
          = st.completed_tasks ++ [{ task with status := TaskStatus.completed }] ∧
      task.task_id ∈ completedIds (applyOutcome st task result).completed_tasks ∧
      (applyOutcome st task result).failed_tasks = st.failed_tasks) ∧
    (result.isSuccess = false →
      (∃ e, (applyOutcome st task result).failed_tasks
          = st.failed_tasks ++ [{ task with status := TaskStatus.failed, error := some e }]) ∧
      completedIds (applyOutcome st task result).completed_tasks
          = completedIds st.completed_tasks) ∧
    ((taskIds st.remaining_tasks).Nodup →
      task.task_id ∉ taskIds (applyOutcome st task result).remaining_tasks) := by
  refine ⟨applyOutcome_remaining st task result, ?_, ?_, ?_⟩
  · intro hs
    obtain ⟨h1, h2⟩ := applyOutcome_of_success st task hs
    exact ⟨h1, by simp [h1, completedIds], h2⟩
  · intro hs
    obtain ⟨h1, e, h2⟩ := applyOutcome_of_failure st task hs
    exact ⟨⟨e, h2⟩, by rw [h1]⟩
  · intro hnr
    rw [applyOutcome_remaining]
    exact removeTask_not_mem hnr

/-- C3 witness: a concrete success moves `A` from remaining to completed. -/
theorem outcome_application_spec_witness :
    (applyOutcome ⟨[], [], [taskA]⟩ taskA (TaskResult.response "success" none)).completed_tasks
        = [{ taskA with status := TaskStatus.completed }] ∧
    "A" ∉ taskIds
      (applyOutcome ⟨[], [], [taskA]⟩ taskA (TaskResult.response "success" none)).remaining_tasks := by
  constructor
  · have h := (outcome_application_spec ⟨[], [], [taskA]⟩ taskA
      (TaskResult.response "success" none)).2.1 (by decide)
    simpa using h.1
  · have h := (outcome_application_spec ⟨[], [], [taskA]⟩ taskA
      (TaskResult.response "success" none)).2.2.2 (by decide)
    simpa using h

/-- C4: a wave's batch is `ready_tasks[:limit]`: it never exceeds `limit`
tasks (the concurrency bound — exactly the batch is simultaneously
`IN_PROGRESS`), it is the initial segment of the ready list (earliest
declared first), and the excess `ready_tasks[limit:]` survives the wave
inside `remaining_tasks`, unchanged and in the same order. -/
theorem concurrency_bound_spec (st : PhaseState) (limit : Nat)
    (o : String → TaskResult) (hnr : (taskIds st.remaining_tasks).Nodup) :
    ((readyTasks st.remaining_tasks (completedIds st.completed_tasks)).take limit).length
        ≤ limit ∧
    ((readyTasks st.remaining_tasks (completedIds st.completed_tasks)).take limit) ++
      ((readyTasks st.remaining_tasks (completedIds st.completed_tasks)).drop limit)
        = readyTasks st.remaining_tasks (completedIds st.completed_tasks) ∧
    ((readyTasks st.remaining_tasks (completedIds st.completed_tasks)).drop limit).Sublist
      (processBatch st
        ((readyTasks st.remaining_tasks (completedIds st.completed_tasks)).take limit)
        o).remaining_tasks := by
  refine ⟨List.length_take_le limit _, List.take_append_drop limit _, ?_⟩
  have hready : (taskIds (readyTasks st.remaining_tasks
      (completedIds st.completed_tasks))).Nodup :=
    List.Nodup.sublist
      ((readyTasks_sublist _ _).map (fun t : Task => t.task_id)) hnr
  have hsplit : taskIds ((readyTasks st.remaining_tasks
        (completedIds st.completed_tasks)).take limit) ++
      taskIds ((readyTasks st.remaining_tasks
        (completedIds st.completed_tasks)).drop limit)
      = taskIds (readyTasks st.remaining_tasks (completedIds st.completed_tasks)) := by
    simp only [taskIds, ← List.map_append, List.take_append_drop]
  have hdisj := (List.nodup_append.mp (by rw [hsplit]; exact hready)).2.2
  have hdropsub : ((readyTasks st.remaining_tasks
      (completedIds st.completed_tasks)).drop limit).Sublist st.remaining_tasks :=
    (List.drop_sublist limit _).trans (readyTasks_sublist _ _)
  refine processBatch_keeps_sublist _ o st _ hdropsub ?_
  intro x hx b hb heq
  have h1 : b.task_id ∈ taskIds ((readyTasks st.remaining_tasks
      (completedIds st.completed_tasks)).take limit) :=
    List.mem_map_of_mem (fun t : Task => t.task_id) hb
  have h2 : b.task_id ∈ taskIds ((readyTasks st.remaining_tasks
      (completedIds st.completed_tasks)).drop limit) := by
    rw [← heq]
    exact List.mem_map_of_mem (fun t : Task => t.task_id) hx
  exact hdisj h1 h2

/-- C4 witness: two ready dependency-free tasks under limit 1: the batch is
`[A]` (length ≤ 1) and the excess `[B]` survives the wave in
`remaining_tasks`. -/
theorem concurrency_bound_spec_witness :
    ((readyTasks [taskA, taskB] (completedIds [])).take 1).length ≤ 1 ∧
    ((readyTasks [taskA, taskB] (completedIds [])).drop 1).Sublist
      (processBatch ⟨[], [], [taskA, taskB]⟩
        ((readyTasks [taskA, taskB] (completedIds [])).take 1)
        outcomesAllSuccess).remaining_tasks := by
  have h := concurrency_bound_spec ⟨[], [], [taskA, taskB]⟩ 1 outcomesAllSuccess (by decide)
  exact ⟨h.1, h.2.2⟩

/-- C5: every batch member produces an outcome and lands in a terminal list,
and its landing place depends only on its own outcome: a batch member with
a success outcome ends `COMPLETED` in `completed_tasks` and one with a
failure outcome ends `FAILED` in `failed_tasks`, irrespective of every other
batch member's outcome. -/
theorem failure_isolation_spec (st : PhaseState) (batch : List Task)
    (o : String → TaskResult) :
    (∀ t ∈ batch, (o t.task_id).isSuccess = true →
      { t with status := TaskStatus.completed }
        ∈ (processBatch st batch o).completed_tasks) ∧
    (∀ t ∈ batch, (o t.task_id).isSuccess = false →
      ∃ e, { t with status := TaskStatus.failed, error := some e }
        ∈ (processBatch st batch o).failed_tasks) ∧
    (∀ t ∈ batch,
      { t with status := TaskStatus.completed }
        ∈ (processBatch st batch o).completed_tasks ∨
      ∃ e, { t with status := TaskStatus.failed, error := some e }
        ∈ (processBatch st batch o).failed_tasks) := by
  refine ⟨fun t ht hs => processBatch_success_mem o ht hs st,
    fun t ht hs => processBatch_failure_mem o ht hs st, fun t ht => ?_⟩
  cases hs : (o t.task_id).isSuccess with
  | true => exact Or.inl (processBatch_success_mem o ht hs st)
  | false => exact Or.inr (processBatch_failure_mem o ht hs st)

/-- C5 witness: the spec's scenario — `A` and `B` independent in one batch,
`A` fails, `B` still completes. -/
theorem failure_isolation_spec_witness :
    { taskB with status := TaskStatus.completed }
      ∈ (processBatch ⟨[], [], [taskA, taskB]⟩ [taskA, taskB]
          outcomesFailA).completed_tasks ∧
    ∃ e, { taskA with status := TaskStatus.failed, error := some e }
      ∈ (processBatch ⟨[], [], [taskA, taskB]⟩ [taskA, taskB]
          outcomesFailA).failed_tasks := by
  constructor
  · exact (failure_isolation_spec ⟨[], [], [taskA, taskB]⟩ [taskA, taskB]
      outcomesFailA).1 taskB (by decide) (by decide)
  · exact (failure_isolation_spec ⟨[], [], [taskA, taskB]⟩ [taskA, taskB]
      outcomesFailA).2.1 taskA (by decide) (by decide)

/-- The final loop state of the spec's failure scenario: `A` (no deps,
fails), `B` (depends on `A`), limit 1. -/
def stalledRun : PhaseState :=
  implementationLoop 1 outcomesFailA 3
    { completed_tasks := [], failed_tasks := [], remaining_tasks := [taskA, taskBdepA] }

/-- C1 counterexample: in the spec's own scenario the loop stops with the
ready set empty and `B` still remaining, but `B` is left `PENDING`, not
`BLOCKED`: the terminal-state id union is `{A}`, not the full id set
`{A, B}`, and no task is ever `BLOCKED`.  (Extra fuel changes nothing: the
loop has genuinely stopped via the `break`.) -/
theorem blocked_marking_counterexample :
    stalledRun.remaining_tasks = [taskBdepA] ∧
    taskBdepA.status = TaskStatus.pending ∧
    taskIds stalledRun.completed_tasks ++ taskIds stalledRun.failed_tasks = ["A"] ∧
    (∀ t ∈ stalledRun.completed_tasks ++ stalledRun.failed_tasks ++
        stalledRun.remaining_tasks, t.status ≠ TaskStatus.blocked) ∧
    "B" ∈ taskIds [taskA, taskBdepA] ∧
    implementationLoop 1 outcomesFailA 99
      { completed_tasks := [], failed_tasks := [],
        remaining_tasks := [taskA, taskBdepA] } = stalledRun := by
  decide

/-- C1 amended: when the ready set is empty while tasks remain, the loop
stops without touching them — every task still remaining at run end is an
unchanged member of the input (hence still `PENDING` when all inputs started
`PENDING`), completed records are `COMPLETED`, failed records are `FAILED`,
and no task is ever marked `BLOCKED`. -/
theorem blocked_marking_amended (tasks : List Task) (limit fuel : Nat)
    (o : String → TaskResult)
    (hpend : ∀ t ∈ tasks, t.status = TaskStatus.pending) :
    (∀ t ∈ (implementationLoop limit o fuel ⟨[], [], tasks⟩).remaining_tasks,
      t ∈ tasks ∧ t.status = TaskStatus.pending) ∧
    (∀ t ∈ (implementationLoop limit o fuel ⟨[], [], tasks⟩).completed_tasks,
      t.status = TaskStatus.completed) ∧
    (∀ t ∈ (implementationLoop limit o fuel ⟨[], [], tasks⟩).failed_tasks,
      t.status = TaskStatus.failed) ∧
    (∀ t ∈ (implementationLoop limit o fuel ⟨[], [], tasks⟩).completed_tasks ++
        (implementationLoop limit o fuel ⟨[], [], tasks⟩).failed_tasks ++
        (implementationLoop limit o fuel ⟨[], [], tasks⟩).remaining_tasks,
      t.status ≠ TaskStatus.blocked) := by
  have hrem : ∀ t ∈ (implementationLoop limit o fuel ⟨[], [], tasks⟩).remaining_tasks,
      t ∈ tasks ∧ t.status = TaskStatus.pending := by
    intro t ht
    have hmem : t ∈ tasks :=
      (implementationLoop_remaining_sublist limit o fuel ⟨[], [], tasks⟩).subset ht
    exact ⟨hmem, hpend t hmem⟩
  obtain ⟨hc, hf⟩ := implementationLoop_status_inv limit o fuel ⟨[], [], tasks⟩
    (by intro x hx; cases hx) (by intro x hx; cases hx)
  refine ⟨hrem, hc, hf, ?_⟩
  intro t ht
  rcases List.mem_append.mp ht with h | h
  · rcases List.mem_append.mp h with h1 | h2
    · rw [hc t h1]; intro hcontra; cases hcontra
    · rw [hf t h2]; intro hcontra; cases hcontra
  · rw [(hrem t h).2]; intro hcontra; cases hcontra

/-- C1 amended witness: in the failure scenario, the remaining task `B` at
run end is an untouched `PENDING` input task. -/
theorem blocked_marking_amended_witness :
    taskBdepA ∈ [taskA, taskBdepA] ∧ taskBdepA.status = TaskStatus.pending := by
  have h := (blocked_marking_amended [taskA, taskBdepA] 1 3 outcomesFailA
    (by decide)).1 taskBdepA (by decide)
  exact ⟨h.1, h.2⟩

/-- C8: the returned result's success rate is the completed count divided by
the plan's total task count (as a percentage), and a run in which every task
completed — none failed, none remaining — has success rate 100. -/
theorem success_rate_spec (tasks : List Task) (limit : Nat)
    (o : String → TaskResult) (hnr : (taskIds tasks).Nodup) (hne : tasks ≠ []) :
    ∃ r, implementationPhase tasks limit o = some r ∧
      r.success_rate = ((implementationLoop limit o (tasks.length + 1)
          ⟨[], [], tasks⟩).completed_tasks.length : ℚ) / (tasks.length : ℚ) * 100 ∧
      (((implementationLoop limit o (tasks.length + 1) ⟨[], [], tasks⟩).failed_tasks = [] ∧
        (implementationLoop limit o (tasks.length + 1) ⟨[], [], tasks⟩).remaining_tasks = [])
        → r.success_rate = 100) := by
  have hlen : ¬ tasks.length = 0 := by
    simpa [List.length_eq_zero] using hne
  refine ⟨{ status := if (implementationLoop limit o (tasks.length + 1)
                ⟨[], [], tasks⟩).failed_tasks = [] then "completed" else "partial",
            completed_tasks := (implementationLoop limit o (tasks.length + 1)
                ⟨[], [], tasks⟩).completed_tasks,
            failed_tasks := (implementationLoop limit o (tasks.length + 1)
                ⟨[], [], tasks⟩).failed_tasks,
            total_tasks := tasks.length,
            success_rate := ((implementationLoop limit o (tasks.length + 1)
                ⟨[], [], tasks⟩).completed_tasks.length : ℚ) / (tasks.length : ℚ) * 100 },
    ?_, rfl, ?_⟩
  · rw [implementationPhase]
    simp [hlen]
  intro ⟨hfail, hrem⟩
  obtain ⟨hcount, _⟩ := implementationLoop_counts limit o (tasks.length + 1)
    ⟨[], [], tasks⟩ hnr
  rw [hfail, hrem] at hcount
  simp only [List.length_nil] at hcount
  have hcomp : (implementationLoop limit o (tasks.length + 1)
      ⟨[], [], tasks⟩).completed_tasks.length = tasks.length := by omega
  show ((implementationLoop limit o (tasks.length + 1)
      ⟨[], [], tasks⟩).completed_tasks.length : ℚ) / (tasks.length : ℚ) * 100 = 100
  rw [hcomp]
  have : (tasks.length : ℚ) ≠ 0 := by
    exact_mod_cast hlen
  field_simp

/-- C8 witness: the spec's scenario `{A, B}` independent, `C` after both,
limit 2, all succeeding — success rate 100. -/
theorem success_rate_spec_witness :
    ∃ r, implementationPhase [taskA, taskB, taskC] 2 outcomesAllSuccess = some r ∧
      r.success_rate = 100 := by
  obtain ⟨r, hr, _, h100⟩ := success_rate_spec [taskA, taskB, taskC] 2
    outcomesAllSuccess (by decide) (by decide)
  exact ⟨r, hr, h100 ⟨by decide, by decide⟩⟩

/-- C9: runs driven by outcome oracles that agree on every task id produce
identical wave groupings and identical final states — the scheduler is
deterministic in the task set, the limit and the outcomes. -/
theorem determinism_spec (tasks : List Task) (limit fuel : Nat)
    (o₁ o₂ : String → TaskResult)
    (h : ∀ t ∈ tasks, o₁ t.task_id = o₂ t.task_id) :
    implementationWaves limit o₁ fuel ⟨[], [], tasks⟩
      = implementationWaves limit o₂ fuel ⟨[], [], tasks⟩ ∧
    implementationLoop limit o₁ fuel ⟨[], [], tasks⟩
      = implementationLoop limit o₂ fuel ⟨[], [], tasks⟩ := by
  obtain ⟨h1, h2⟩ := implementationLoop_congr limit fuel ⟨[], [], tasks⟩ h
  exact ⟨h2, h1⟩

/-- An oracle differing from `outcomesFailA` only on the unused id `Z`. -/
def outcomesAlt : String → TaskResult :=
  fun id => if id = "Z" then TaskResult.exn "crash" else outcomesFailA id

/-- C9 witness: the two (extensionally different) oracles agree on `A` and
`B`, so the failure scenario's waves coincide. -/
theorem determinism_spec_witness :
    implementationWaves 1 outcomesFailA 3 ⟨[], [], [taskA, taskBdepA]⟩
      = implementationWaves 1 outcomesAlt 3 ⟨[], [], [taskA, taskBdepA]⟩ := by
  exact (determinism_spec [taskA, taskBdepA] 1 3 outcomesFailA outcomesAlt
    (by decide)).1

/-- C10: the success-rate division is well defined exactly on non-empty task
lists: a non-empty plan yields a result dict, while the empty plan's
unguarded `len(completed)/len(plan.tasks)` raises and no result is
produced. -/
theorem division_guard_spec (tasks : List Task) (limit : Nat)
    (o : String → TaskResult) :
    (tasks ≠ [] → (implementationPhase tasks limit o).isSome = true) ∧
    (tasks = [] → implementationPhase tasks limit o = none) := by
  constructor
  · intro hne
    have hlen : ¬ tasks.length = 0 := by simpa [List.length_eq_zero] using hne
    rw [implementationPhase]
    simp [hlen]
  · intro he
    subst he
    rfl

/-- C10 witness: a one-task plan yields a result; the empty plan yields
none. -/
theorem division_guard_spec_witness :
    (implementationPhase [taskA] 3 outcomesAllSuccess).isSome = true ∧
    implementationPhase [] 3 outcomesAllSuccess = none :=
  ⟨(division_guard_spec [taskA] 3 outcomesAllSuccess).1 (by decide),
   (division_guard_spec [] 3 outcomesAllSuccess).2 rfl⟩

/-! ### Validator lemmas: DFS soundness

On a cycle-free graph, `has_cycle` can never answer `True`: the recursion
stack always forms a dependency chain, so a stack hit would exhibit a cycle.
-/

theorem hasCycleAux_succ (g : List (String × List String)) (n : Nat)
    (node : String) (st : DfsState) :
    hasCycleAux g (n + 1) node st = hasCycleStep g (hasCycleAux g n) node st := rfl

theorem chainStack_cons {g : List (String × List String)} {s : List String}
    {n : String} (h : ChainStack g s) (hl : LinkedTo g s n) :
    ChainStack g (n :: s) := by
  cases s with
  | nil => exact trivial
  | cons a t => exact ⟨hl, h⟩

theorem chain_reaches_head {g : List (String × List String)} :
    ∀ {t : List String} {h : String}, ChainStack g (h :: t) →
      ∀ x ∈ h :: t, Reaches g x h := by
  intro t
  induction t with
  | nil =>
      intro h _ x hx
      rcases List.mem_cons.mp hx with heq | hmem
      · exact heq ▸ Relation.ReflTransGen.refl
      · cases hmem
  | cons b l ih =>
      intro h hch x hx
      obtain ⟨hedge, hch2⟩ := hch
      rcases List.mem_cons.mp hx with heq | hmem
      · exact heq ▸ Relation.ReflTransGen.refl
      · exact Relation.ReflTransGen.tail (ih hch2 x hmem) hedge

theorem chain_mem_onCycle {g : List (String × List String)} {s : List String}
    {n : String} (hc : ChainStack g s) (hl : LinkedTo g s n) (hm : n ∈ s) :
    OnCycle g n := by
  cases s with
  | nil => cases hm
  | cons h t =>
      have hreach : Reaches g n h := chain_reaches_head hc n hm
      have hedge : edgeOf g h n := hl
      rcases Relation.ReflTransGen.cases_head hreach with heq | ⟨c, hnc, hch⟩
      · exact ⟨n, by rw [heq]; exact heq ▸ hedge, Relation.ReflTransGen.refl⟩
      · exact ⟨c, hnc, Relation.ReflTransGen.tail hch hedge⟩

theorem hasCycleAux_sound {g : List (String × List String)}
    (hacy : ∀ x, ¬ OnCycle g x) :
    ∀ (fuel : Nat) (node : String) (st : DfsState),
      ChainStack g st.rec_stack → LinkedTo g st.rec_stack node →
      (hasCycleAux g fuel node st).1 = false ∧
      (hasCycleAux g fuel node st).2.rec_stack = st.rec_stack := by
  intro fuel
  induction fuel with
  | zero => exact fun node st _ _ => ⟨rfl, rfl⟩
  | succ n ih =>
      intro node st hchain hlink
      rw [hasCycleAux_succ, hasCycleStep]
      by_cases hrec : node ∈ st.rec_stack
      · exact absurd (chain_mem_onCycle hchain hlink hrec) (hacy node)
      · rw [if_neg hrec]
        by_cases hvis : node ∈ st.visited
        · rw [if_pos hvis]
          exact ⟨rfl, rfl⟩
        · rw [if_neg hvis]
          have hDL : ∀ (deps : List String) (st' : DfsState),
              ChainStack g st'.rec_stack → (∀ d ∈ deps, LinkedTo g st'.rec_stack d) →
              (depsLoop (hasCycleAux g n) deps st').1 = false ∧
              (depsLoop (hasCycleAux g n) deps st').2.rec_stack = st'.rec_stack := by
            intro deps
            induction deps with
            | nil => exact fun st' _ _ => ⟨rfl, rfl⟩
            | cons d ds ihd =>
                intro st' h1 h2
                obtain ⟨hf, hst⟩ := ih d st' h1 (h2 d (List.mem_cons_self d ds))
                rw [depsLoop, if_neg (by simp [hf])]
                obtain ⟨hf2, hst2⟩ := ihd (hasCycleAux g n d st').2
                  (by rw [hst]; exact h1)
                  (fun d' hd' => by
                    rw [LinkedTo.eq_def]
                    rw [hst]
                    have := h2 d' (List.mem_cons_of_mem d hd')
                    rw [LinkedTo.eq_def] at this
                    exact this)
                exact ⟨hf2, by rw [hst2, hst]⟩
          have hchain1 : ChainStack g (node :: st.rec_stack) :=
            chainStack_cons hchain hlink
          have hlinked : ∀ d ∈ depsOf g node,
              LinkedTo g (node :: st.rec_stack) d := fun d hd => hd
          obtain ⟨hf, hst⟩ := hDL (depsOf g node)
            ⟨node :: st.visited, node :: st.rec_stack⟩ hchain1 hlinked
          rw [if_neg (by simp [hf])]
          refine ⟨rfl, ?_⟩
          show (depsLoop (hasCycleAux g n) (depsOf g node)
            ⟨node :: st.visited, node :: st.rec_stack⟩).2.rec_stack.erase node
              = st.rec_stack
          rw [hst]
          exact List.erase_cons_head node st.rec_stack

/-- On a cycle-free graph the whole scan reports nothing and ends with an
empty recursion stack. -/
theorem checkFold_sound {g : List (String × List String)}
    (hacy : ∀ x, ¬ OnCycle g x) :
    ∀ (l : List (String × List String)) (acc : List String × DfsState),
      acc.2.rec_stack = [] →
      (List.foldl (fun (acc : List String × DfsState) (p : String × List String) =>
          if p.1 ∈ acc.2.visited then acc
          else
            if (hasCycleAux g (dfsFuel g) p.1 acc.2).1 then
              (acc.1 ++ [cycleMsg p.1], (hasCycleAux g (dfsFuel g) p.1 acc.2).2)
            else (acc.1, (hasCycleAux g (dfsFuel g) p.1 acc.2).2)) acc l).1
        = acc.1 ∧
      (List.foldl (fun (acc : List String × DfsState) (p : String × List String) =>
          if p.1 ∈ acc.2.visited then acc
          else
            if (hasCycleAux g (dfsFuel g) p.1 acc.2).1 then
              (acc.1 ++ [cycleMsg p.1], (hasCycleAux g (dfsFuel g) p.1 acc.2).2)
            else (acc.1, (hasCycleAux g (dfsFuel g) p.1 acc.2).2)) acc l).2.rec_stack
        = [] := by
  intro l
  induction l with
  | nil => exact fun acc h => ⟨rfl, h⟩
  | cons p ps ih =>
      intro acc hacc
      rw [List.foldl_cons]
      by_cases hvis : p.1 ∈ acc.2.visited
      · rw [if_pos hvis]
        exact ih acc hacc
      · rw [if_neg hvis]
        obtain ⟨hf, hst⟩ := hasCycleAux_sound hacy (dfsFuel g) p.1 acc.2
          (by rw [hacc]; exact trivial) (by rw [LinkedTo.eq_def, hacc]; exact trivial)
        rw [if_neg (by simp [hf])]
        exact ih _ (by rw [hst]; exact hacc)

/-- Soundness of the cycle scan: a cycle-free graph produces no errors. -/
theorem checkCyclesOf_sound {g : List (String × List String)}
    (hacy : ∀ x, ¬ OnCycle g x) : checkCyclesOf g = [] := by
  rw [checkCyclesOf]
  exact (checkFold_sound hacy g ([], ⟨[], []⟩) rfl).1

/-! ### Validator lemmas: DFS completeness

If the scan reports nothing, its finished set admits a topological finish
order (`GoodFin`), covers every key, and is edge-closed — so the graph has
no cycle.  Contrapositive: a cyclic graph makes the scan report something. -/

theorem mem_allNames {g : List (String × List String)} {x : String} :
    x ∈ allNames g ↔ ∃ p ∈ g, x = p.1 ∨ x ∈ p.2 := by
  induction g with
  | nil => simp [allNames]
  | cons q qs ih =>
      have hunfold : allNames (q :: qs) = q.1 :: (q.2 ++ allNames qs) := rfl
      rw [hunfold]
      constructor
      · intro h
        rcases List.mem_cons.mp h with h1 | h1
        · exact ⟨q, List.mem_cons_self q qs, Or.inl h1⟩
        · rcases List.mem_append.mp h1 with h2 | h2
          · exact ⟨q, List.mem_cons_self q qs, Or.inr h2⟩
          · obtain ⟨p, hp, hx⟩ := ih.mp h2
            exact ⟨p, List.mem_cons_of_mem q hp, hx⟩
      · rintro ⟨p, hp, hx⟩
        rcases List.mem_cons.mp hp with heq | hmem
        · subst heq
          rcases hx with h | h
          · exact List.mem_cons.mpr (Or.inl h)
          · exact List.mem_cons.mpr (Or.inr (List.mem_append.mpr (Or.inl h)))
        · exact List.mem_cons.mpr
            (Or.inr (List.mem_append.mpr (Or.inr (ih.mpr ⟨p, hmem, hx⟩))))

theorem depsOf_mem {g : List (String × List String)} {x d : String}
    (h : d ∈ depsOf g x) : ∃ p ∈ g, p.1 = x ∧ d ∈ p.2 := by
  rw [depsOf] at h
  cases hf : g.find? (fun p => p.1 == x) with
  | none => rw [hf] at h; cases h
  | some p =>
      rw [hf] at h
      have hpg : p ∈ g := List.mem_of_find?_eq_some hf
      have hpx : p.1 = x := by
        have := List.find?_some hf
        simpa using this
      exact ⟨p, hpg, hpx, h⟩

/-- A node with an outgoing edge is a key of the dependency dict. -/
theorem edge_src_mem_keys {g : List (String × List String)} {x y : String}
    (h : edgeOf g x y) : x ∈ g.map Prod.fst := by
  obtain ⟨p, hp, hpx, _⟩ := depsOf_mem h
  rw [← hpx]
  exact List.mem_map_of_mem Prod.fst hp

theorem key_mem_allNames {g : List (String × List String)} {x : String}
    (h : x ∈ g.map Prod.fst) : x ∈ allNames g := by
  obtain ⟨p, hp, hpx⟩ := List.mem_map.mp h
  exact mem_allNames.mpr ⟨p, hp, Or.inl hpx.symm⟩

theorem dep_mem_allNames {g : List (String × List String)} {x d : String}
    (h : d ∈ depsOf g x) : d ∈ allNames g := by
  obtain ⟨p, hp, _, hd⟩ := depsOf_mem h
  exact mem_allNames.mpr ⟨p, hp, Or.inr hd⟩

/-- A finish-order list is closed under one dependency edge. -/
theorem goodFin_mem_closed {g : List (String × List String)} :
    ∀ {f : List String}, GoodFin g f → ∀ x ∈ f, ∀ w, edgeOf g x w → w ∈ f := by
  intro f
  induction f with
  | nil => intro _ x hx; cases hx
  | cons v rest ih =>
      intro hgf x hx w hw
      obtain ⟨hv, hrest⟩ := hgf
      rcases List.mem_cons.mp hx with heq | hmem
      · exact List.mem_cons_of_mem v (hv w (heq ▸ hw))
      · exact List.mem_cons_of_mem v (ih hrest x hmem w hw)

/-- A finish-order list is closed under reachability. -/
theorem goodFin_reach_closed {g : List (String × List String)} {f : List String}
    (hgf : GoodFin g f) {x z : String} (hx : x ∈ f) (hr : Reaches g x z) :
    z ∈ f := by
  induction hr using Relation.ReflTransGen.head_induction_on with
  | refl => exact hx
  | head hxy _ ih => exact ih (goodFin_mem_closed hgf _ hx _ hxy)

/-- Nothing in a duplicate-free finish-order list lies on a cycle. -/
theorem goodFin_not_onCycle {g : List (String × List String)} :
    ∀ {f : List String}, GoodFin g f → f.Nodup → ∀ x ∈ f, ¬ OnCycle g x := by
  intro f
  induction f with
  | nil => intro _ _ x hx; cases hx
  | cons v rest ih =>
      intro hgf hnd x hx hcyc
      obtain ⟨hv, hrest⟩ := hgf
      obtain ⟨hnotin, hndrest⟩ := List.nodup_cons.mp hnd
      rcases List.mem_cons.mp hx with heq | hmem
      · subst heq
        obtain ⟨y, hxy, hyx⟩ := hcyc
        have hy : y ∈ rest := hv y hxy
        exact hnotin (goodFin_reach_closed hrest hy hyx)
      · exact ih hrest hndrest x hmem hcyc

theorem unvisitedCount_le (g : List (String × List String)) (st : DfsState) :
    unvisitedCount g st ≤ (allNames g).dedup.length :=
  List.length_filter_le _ _

theorem unvisitedCount_mono {g : List (String × List String)}
    {st st' : DfsState} (h : st.visited ⊆ st'.visited) :
    unvisitedCount g st' ≤ unvisitedCount g st := by
  refine List.Sublist.length_le (List.monotone_filter_right _ ?_)
  intro x hx
  simp only [decide_eq_true_eq] at hx ⊢
  exact fun hc => hx (h hc)

/-- Marking one fresh known name visited decreases the budget by one. -/
theorem filter_unvisited_cons_length {node : String} {visited : List String} :
    ∀ {L : List String}, L.Nodup → node ∈ L → node ∉ visited →
      (L.filter (fun x => decide (x ∉ node :: visited))).length + 1
        = (L.filter (fun x => decide (x ∉ visited))).length := by
  intro L
  induction L with
  | nil => intro _ h _; cases h
  | cons a l ih =>
      intro hnd hmem hv
      obtain ⟨hanotin, hndl⟩ := List.nodup_cons.mp hnd
      by_cases hanode : a = node
      · subst hanode
        have hfilter : l.filter (fun x => decide (x ∉ a :: visited))
            = l.filter (fun x => decide (x ∉ visited)) := by
          refine List.filter_congr fun x hx => decide_eq_decide.mpr ?_
          have hxa : x ≠ a := fun hc => hanotin (hc ▸ hx)
          simp [List.mem_cons, hxa]
        rw [List.filter_cons_of_neg (by simp), List.filter_cons_of_pos (by simp [hv]),
          hfilter, List.length_cons]
      · have hmem2 : node ∈ l := by
          rcases List.mem_cons.mp hmem with h | h
          · exact absurd h.symm hanode
          · exact h
        by_cases hva : a ∈ visited
        · rw [List.filter_cons_of_neg (by simp [hva]),
            List.filter_cons_of_neg (by simp [hva])]
          exact ih hndl hmem2 hv
        · rw [List.filter_cons_of_pos (by simp [hva, hanode]),
            List.filter_cons_of_pos (by simp [hva])]
          rw [List.length_cons, List.length_cons]
          have := ih hndl hmem2 hv
          omega

theorem unvisitedCount_cons {g : List (String × List String)} {st : DfsState}
    {node : String} {rs : List String} (hn : node ∈ allNames g)
    (hv : node ∉ st.visited) :
    unvisitedCount g ⟨node :: st.visited, rs⟩ + 1 = unvisitedCount g st :=
  filter_unvisited_cons_length (List.nodup_dedup _) (List.mem_dedup.mpr hn) hv

/-- The completeness invariant of `has_cycle`: a `False` answer extends the
ghost finish-order list, restores the recursion stack, grows the visited set,
and leaves the queried node visited and off the stack. -/
theorem hasCycleAux_complete {g : List (String × List String)} :
    ∀ (fuel : Nat) (node : String) (st : DfsState) (f : List String),
      unvisitedCount g st + 1 ≤ fuel →
      node ∈ allNames g →
      f.Nodup → GoodFin g f →
      (∀ v, v ∈ f ↔ v ∈ st.visited ∧ v ∉ st.rec_stack) →
      (hasCycleAux g fuel node st).1 = false →
      ∃ f2, f2.Nodup ∧ GoodFin g f2 ∧
        (∀ v, v ∈ f2 ↔ v ∈ (hasCycleAux g fuel node st).2.visited ∧
           v ∉ (hasCycleAux g fuel node st).2.rec_stack) ∧
        (hasCycleAux g fuel node st).2.rec_stack = st.rec_stack ∧
        st.visited ⊆ (hasCycleAux g fuel node st).2.visited ∧
        node ∈ (hasCycleAux g fuel node st).2.visited ∧
        node ∉ (hasCycleAux g fuel node st).2.rec_stack := by
  intro fuel
  induction fuel with
  | zero => intro node st f hfuel; omega
  | succ n ih =>
      intro node st f hfuel hnode hnd hgf hchar hfalse
      rw [hasCycleAux_succ, hasCycleStep] at hfalse ⊢
      by_cases hrec : node ∈ st.rec_stack
      · rw [if_pos hrec] at hfalse
        cases hfalse
      · rw [if_neg hrec] at hfalse ⊢
        by_cases hvis : node ∈ st.visited
        · rw [if_pos hvis] at hfalse ⊢
          exact ⟨f, hnd, hgf, hchar, rfl, fun x hx => hx, hvis, hrec⟩
        · rw [if_neg hvis] at hfalse ⊢
          have hDLC : ∀ (deps : List String) (st' : DfsState) (f' : List String),
              (∀ d ∈ deps, d ∈ allNames g) →
              unvisitedCount g st' + 1 ≤ n →
              f'.Nodup → GoodFin g f' →
              (∀ v, v ∈ f' ↔ v ∈ st'.visited ∧ v ∉ st'.rec_stack) →
              (depsLoop (hasCycleAux g n) deps st').1 = false →
              ∃ f2, f2.Nodup ∧ GoodFin g f2 ∧
                (∀ v, v ∈ f2 ↔ v ∈ (depsLoop (hasCycleAux g n) deps st').2.visited ∧
                   v ∉ (depsLoop (hasCycleAux g n) deps st').2.rec_stack) ∧
                (depsLoop (hasCycleAux g n) deps st').2.rec_stack = st'.rec_stack ∧
                st'.visited ⊆ (depsLoop (hasCycleAux g n) deps st').2.visited ∧
                (∀ d ∈ deps, d ∈ (depsLoop (hasCycleAux g n) deps st').2.visited ∧
                   d ∉ (depsLoop (hasCycleAux g n) deps st').2.rec_stack) := by
            intro deps
            induction deps with
            | nil =>
                intro st' f' _ _ hnd' hgf' hchar' _
                exact ⟨f', hnd', hgf', hchar', rfl, fun x hx => hx,
                  fun d hd => absurd hd (List.not_mem_nil d)⟩
            | cons d ds ihd =>
                intro st' f' hdall hfuel' hnd' hgf' hchar' hfalse'
                rw [depsLoop] at hfalse' ⊢
                by_cases hd1 : (hasCycleAux g n d st').1 = true
                · rw [if_pos hd1] at hfalse'
                  rw [hfalse'] at hd1
                  cases hd1
                · rw [if_neg hd1] at hfalse' ⊢
                  have hd1f : (hasCycleAux g n d st').1 = false := by
                    simpa using hd1
                  obtain ⟨f1, hnd1, hgf1, hchar1, hrs1, hsub1, hdin1, hdnr1⟩ :=
                    ih d st' f' hfuel' (hdall d (List.mem_cons_self d ds))
                      hnd' hgf' hchar' hd1f
                  have hfuel2 : unvisitedCount g (hasCycleAux g n d st').2 + 1 ≤ n := by
                    have := unvisitedCount_mono (g := g) hsub1
                    omega
                  obtain ⟨f2, hnd2, hgf2, hchar2, hrs2, hsub2, hdin2⟩ :=
                    ihd (hasCycleAux g n d st').2 f1
                      (fun d' hd' => hdall d' (List.mem_cons_of_mem d hd'))
                      hfuel2 hnd1 hgf1 hchar1 hfalse'
                  refine ⟨f2, hnd2, hgf2, hchar2, by rw [hrs2, hrs1],
                    fun x hx => hsub2 (hsub1 hx), ?_⟩
                  intro d' hd'
                  rcases List.mem_cons.mp hd' with heq | hmem
                  · subst heq
                    exact ⟨hsub2 hdin1, by rw [hrs2]; exact hdnr1⟩
                  · exact hdin2 d' hmem
          by_cases hdl : (depsLoop (hasCycleAux g n) (depsOf g node)
              ⟨node :: st.visited, node :: st.rec_stack⟩).1 = true
          · rw [if_pos hdl] at hfalse
            cases hfalse
          · rw [if_neg hdl] at hfalse ⊢
            have hdlf : (depsLoop (hasCycleAux g n) (depsOf g node)
                ⟨node :: st.visited, node :: st.rec_stack⟩).1 = false := by
              simpa using hdl
            have hfuel1 : unvisitedCount g
                (⟨node :: st.visited, node :: st.rec_stack⟩ : DfsState) + 1 ≤ n := by
              have hcons := @unvisitedCount_cons g st node
                (node :: st.rec_stack) hnode hvis
              omega
            have hchar1 : ∀ v, v ∈ f ↔
                v ∈ (⟨node :: st.visited, node :: st.rec_stack⟩ : DfsState).visited ∧
                v ∉ (⟨node :: st.visited, node :: st.rec_stack⟩ : DfsState).rec_stack := by
              intro v
              constructor
              · intro hv
                obtain ⟨hv1, hv2⟩ := (hchar v).mp hv
                have hvne : v ≠ node := fun hc => hvis (hc ▸ hv1)
                refine ⟨List.mem_cons_of_mem node hv1, ?_⟩
                intro hc
                rcases List.mem_cons.mp hc with h | h
                · exact hvne h
                · exact hv2 h
              · intro ⟨hv1, hv2⟩
                have hvne : v ≠ node := fun hc => hv2 (hc ▸ List.mem_cons_self node _)
                refine (hchar v).mpr ⟨?_, ?_⟩
                · rcases List.mem_cons.mp hv1 with h | h
                  · exact absurd h hvne
                  · exact h
                · exact fun hc => hv2 (List.mem_cons_of_mem node hc)
            obtain ⟨f2, hnd2, hgf2, hchar2, hrs2, hsub2, hdin2⟩ :=
              hDLC (depsOf g node) ⟨node :: st.visited, node :: st.rec_stack⟩ f
                (fun d hd => dep_mem_allNames hd) hfuel1 hnd hgf hchar1 hdlf
            have herase : (depsLoop (hasCycleAux g n) (depsOf g node)
                ⟨node :: st.visited, node :: st.rec_stack⟩).2.rec_stack.erase node
                = st.rec_stack := by
              rw [hrs2]
              exact List.erase_cons_head node st.rec_stack
            have hnodein2 : node ∈ (depsLoop (hasCycleAux g n) (depsOf g node)
                ⟨node :: st.visited, node :: st.rec_stack⟩).2.visited :=
              hsub2 (List.mem_cons_self node st.visited)
            have hnodef2 : node ∉ f2 := by
              intro hc
              have := ((hchar2 node).mp hc).2
              exact this (by rw [hrs2]; exact List.mem_cons_self node st.rec_stack)
            refine ⟨node :: f2, List.nodup_cons.mpr ⟨hnodef2, hnd2⟩,
              ⟨?_, hgf2⟩, ?_, ?_, ?_, ?_, ?_⟩
            · intro w hw
              have := hdin2 w hw
              exact (hchar2 w).mpr this
            · intro v
              show v ∈ node :: f2 ↔ _ ∧ v ∉ (depsLoop (hasCycleAux g n) (depsOf g node)
                ⟨node :: st.visited, node :: st.rec_stack⟩).2.rec_stack.erase node
              rw [herase]
              constructor
              · intro hv
                rcases List.mem_cons.mp hv with heq | hmem
                · subst heq
                  exact ⟨hnodein2, hrec⟩
                · obtain ⟨h1, h2⟩ := (hchar2 v).mp hmem
                  refine ⟨h1, fun hc => h2 ?_⟩
                  rw [hrs2]
                  exact List.mem_cons_of_mem node hc
              · intro ⟨hv1, hv2⟩
                by_cases hvn : v = node
                · exact hvn ▸ List.mem_cons_self node f2
                · refine List.mem_cons_of_mem node ((hchar2 v).mpr ⟨hv1, ?_⟩)
                  rw [hrs2]
                  intro hc
                  rcases List.mem_cons.mp hc with h | h
                  · exact hvn h
                  · exact hv2 h
            · exact herase
            · exact fun x hx => hsub2 (List.mem_cons_of_mem node hx)
            · exact hnodein2
            · show node ∉ (depsLoop (hasCycleAux g n) (depsOf g node)
                ⟨node :: st.visited, node :: st.rec_stack⟩).2.rec_stack.erase node
              rw [herase]
              exact hrec

/-- The scan's error list only grows along the fold. -/
theorem checkFold_append {g : List (String × List String)} :
    ∀ (l : List (String × List String)) (acc : List String × DfsState),
      ∃ e, (List.foldl (fun (acc : List String × DfsState) (p : String × List String) =>
          if p.1 ∈ acc.2.visited then acc
          else
            if (hasCycleAux g (dfsFuel g) p.1 acc.2).1 then
              (acc.1 ++ [cycleMsg p.1], (hasCycleAux g (dfsFuel g) p.1 acc.2).2)
            else (acc.1, (hasCycleAux g (dfsFuel g) p.1 acc.2).2)) acc l).1
        = acc.1 ++ e := by
  intro l
  induction l with
  | nil => exact fun acc => ⟨[], by simp⟩
  | cons p ps ih =>
      intro acc
      rw [List.foldl_cons]
      by_cases hvis : p.1 ∈ acc.2.visited
      · rw [if_pos hvis]
        exact ih acc
      · rw [if_neg hvis]
        by_cases htrue : (hasCycleAux g (dfsFuel g) p.1 acc.2).1 = true
        · rw [if_pos htrue]
          obtain ⟨e, he⟩ := ih (acc.1 ++ [cycleMsg p.1], (hasCycleAux g (dfsFuel g) p.1 acc.2).2)
          exact ⟨[cycleMsg p.1] ++ e, by rw [he]; simp⟩
        · rw [if_neg htrue]
          exact ih _

/-- If the scan over `l` reports nothing, its final visited set extends to a
finish order covering every key of `l`. -/
theorem checkFold_complete {g : List (String × List String)} :
    ∀ (l : List (String × List String)) (acc : List String × DfsState)
      (f : List String),
      (∀ p ∈ l, p.1 ∈ allNames g) →
      f.Nodup → GoodFin g f →
      (∀ v, v ∈ f ↔ v ∈ acc.2.visited ∧ v ∉ acc.2.rec_stack) →
      acc.2.rec_stack = [] →
      (List.foldl (fun (acc : List String × DfsState) (p : String × List String) =>
          if p.1 ∈ acc.2.visited then acc
          else
            if (hasCycleAux g (dfsFuel g) p.1 acc.2).1 then
              (acc.1 ++ [cycleMsg p.1], (hasCycleAux g (dfsFuel g) p.1 acc.2).2)
            else (acc.1, (hasCycleAux g (dfsFuel g) p.1 acc.2).2)) acc l).1 = acc.1 →
      ∃ f2, f2.Nodup ∧ GoodFin g f2 ∧
        (∀ v, v ∈ f2 ↔
          v ∈ (List.foldl (fun (acc : List String × DfsState) (p : String × List String) =>
            if p.1 ∈ acc.2.visited then acc
            else
              if (hasCycleAux g (dfsFuel g) p.1 acc.2).1 then
                (acc.1 ++ [cycleMsg p.1], (hasCycleAux g (dfsFuel g) p.1 acc.2).2)
              else (acc.1, (hasCycleAux g (dfsFuel g) p.1 acc.2).2)) acc l).2.visited ∧
          v ∉ (List.foldl (fun (acc : List String × DfsState) (p : String × List String) =>
            if p.1 ∈ acc.2.visited then acc
            else
              if (hasCycleAux g (dfsFuel g) p.1 acc.2).1 then
                (acc.1 ++ [cycleMsg p.1], (hasCycleAux g (dfsFuel g) p.1 acc.2).2)
              else (acc.1, (hasCycleAux g (dfsFuel g) p.1 acc.2).2)) acc l).2.rec_stack) ∧
        (List.foldl (fun (acc : List String × DfsState) (p : String × List String) =>
            if p.1 ∈ acc.2.visited then acc
            else
              if (hasCycleAux g (dfsFuel g) p.1 acc.2).1 then
                (acc.1 ++ [cycleMsg p.1], (hasCycleAux g (dfsFuel g) p.1 acc.2).2)
              else (acc.1, (hasCycleAux g (dfsFuel g) p.1 acc.2).2)) acc l).2.rec_stack
          = [] ∧
        acc.2.visited ⊆ (List.foldl (fun (acc : List String × DfsState) (p : String × List String) =>
            if p.1 ∈ acc.2.visited then acc
            else
              if (hasCycleAux g (dfsFuel g) p.1 acc.2).1 then
                (acc.1 ++ [cycleMsg p.1], (hasCycleAux g (dfsFuel g) p.1 acc.2).2)
              else (acc.1, (hasCycleAux g (dfsFuel g) p.1 acc.2).2)) acc l).2.visited ∧
        (∀ p ∈ l, p.1 ∈ (List.foldl (fun (acc : List String × DfsState) (p : String × List String) =>
            if p.1 ∈ acc.2.visited then acc
            else
              if (hasCycleAux g (dfsFuel g) p.1 acc.2).1 then
                (acc.1 ++ [cycleMsg p.1], (hasCycleAux g (dfsFuel g) p.1 acc.2).2)
              else (acc.1, (hasCycleAux g (dfsFuel g) p.1 acc.2).2)) acc l).2.visited) := by
  intro l
  induction l with
  | nil =>
      intro acc f _ hnd hgf hchar hstack _
      exact ⟨f, hnd, hgf, hchar, hstack, fun x hx => hx,
        fun p hp => absurd hp (List.not_mem_nil p)⟩
  | cons p ps ih =>
      intro acc f hall hnd hgf hchar hstack hres
      rw [List.foldl_cons] at hres ⊢
      by_cases hvis : p.1 ∈ acc.2.visited
      · rw [if_pos hvis] at hres ⊢
        obtain ⟨f2, hnd2, hgf2, hchar2, hrs2, hsub2, hkeys2⟩ :=
          ih acc f (fun q hq => hall q (List.mem_cons_of_mem p hq))
            hnd hgf hchar hstack hres
        refine ⟨f2, hnd2, hgf2, hchar2, hrs2, hsub2, ?_⟩
        intro q hq
        rcases List.mem_cons.mp hq with heq | hmem
        · exact heq ▸ hsub2 hvis
        · exact hkeys2 q hmem
      · rw [if_neg hvis] at hres ⊢
        by_cases htrue : (hasCycleAux g (dfsFuel g) p.1 acc.2).1 = true
        · rw [if_pos htrue] at hres
          obtain ⟨e, he⟩ := checkFold_append (g := g) ps
            (acc.1 ++ [cycleMsg p.1], (hasCycleAux g (dfsFuel g) p.1 acc.2).2)
          rw [he] at hres
          have hcg := congrArg List.length hres
          simp at hcg
        · rw [if_neg htrue] at hres ⊢
          have hfalse : (hasCycleAux g (dfsFuel g) p.1 acc.2).1 = false := by
            simpa using htrue
          have hfuel : unvisitedCount g acc.2 + 1 ≤ dfsFuel g := by
            have := unvisitedCount_le g acc.2
            rw [dfsFuel]
            omega
          obtain ⟨f1, hnd1, hgf1, hchar1, hrs1, hsub1, hpin1, _⟩ :=
            hasCycleAux_complete (dfsFuel g) p.1 acc.2 f hfuel
              (hall p (List.mem_cons_self p ps)) hnd hgf hchar hfalse
          obtain ⟨f2, hnd2, hgf2, hchar2, hrs2, hsub2, hkeys2⟩ :=
            ih (acc.1, (hasCycleAux g (dfsFuel g) p.1 acc.2).2) f1
              (fun q hq => hall q (List.mem_cons_of_mem p hq))
              hnd1 hgf1 hchar1 (by rw [hrs1]; exact hstack) hres
          refine ⟨f2, hnd2, hgf2, hchar2, hrs2, fun x hx => hsub2 (hsub1 hx), ?_⟩
          intro q hq
          rcases List.mem_cons.mp hq with heq | hmem
          · exact heq ▸ hsub2 hpin1
          · exact hkeys2 q hmem

/-- Completeness of the cycle scan: a graph with a cycle produces at least
one error. -/
theorem checkCyclesOf_complete {g : List (String × List String)}
    (hcyc : ∃ x, OnCycle g x) : checkCyclesOf g ≠ [] := by
  intro hempty
  rw [checkCyclesOf] at hempty
  obtain ⟨f2, hnd2, hgf2, hchar2, hrs2, _, hkeys⟩ :=
    checkFold_complete g ([], ⟨[], []⟩) []
      (fun p hp => key_mem_allNames (List.mem_map_of_mem Prod.fst hp))
      List.nodup_nil trivial (by simp) rfl hempty
  obtain ⟨x, hx⟩ := hcyc
  obtain ⟨y, hxy, hyx⟩ := hx
  obtain ⟨p, hp, hpx⟩ := List.mem_map.mp (edge_src_mem_keys hxy)
  have hxf2 : x ∈ f2 := by
    refine (hchar2 x).mpr ⟨hpx ▸ hkeys p hp, ?_⟩
    rw [hrs2]
    exact List.not_mem_nil x
  exact goodFin_not_onCycle hgf2 hnd2 x hxf2 ⟨y, hxy, hyx⟩

/-- In the graph built from `planDup` (`A ↦ []`, `B ↦ ["ghost"]`, the second
declaration of `A` having overwritten the first) no node lies on a cycle. -/
theorem planDup_acyclic : ∀ x, ¬ OnCycle (buildDeps planDup) x := by
  intro x ⟨y, hxy, hyx⟩
  have hkeys : (buildDeps planDup).map Prod.fst = ["A", "B"] := by decide
  have hxkey := edge_src_mem_keys hxy
  rw [hkeys] at hxkey
  have hxcases : x = "A" ∨ x = "B" := by simpa using hxkey
  rcases hxcases with hxA | hxB
  · subst hxA
    have : depsOf (buildDeps planDup) "A" = [] := by decide
    rw [edgeOf, this] at hxy
    cases hxy
  · subst hxB
    have hdeps : depsOf (buildDeps planDup) "B" = ["ghost"] := by decide
    rw [edgeOf, hdeps] at hxy
    have hy : y = "ghost" := by simpa using hxy
    subst hy
    rcases Relation.ReflTransGen.cases_head hyx with heq | ⟨c, hgc, _⟩
    · exact absurd heq (by decide)
    · have : depsOf (buildDeps planDup) "ghost" = [] := by decide
      rw [edgeOf, this] at hgc
      cases hgc

/-- The cycle `B → C → B` of `planCyc`. -/
theorem planCyc_onCycle_B : OnCycle (buildDeps planCyc) "B" :=
  ⟨"C", by decide, Relation.ReflTransGen.single (by decide)⟩

/-! ### Validator claims -/

/-- C6 counterexample: on the graph `A → B, B → C, C → B` the check reports
only the DFS root `A`, which does not lie on the cycle `B → C → B`; no task
on the cycle is reported. -/
theorem cycle_report_counterexample :
    check_dependency_cycles planCyc = [cycleMsg "A"] ∧
    OnCycle (buildDeps planCyc) "B" ∧
    ¬ OnCycle (buildDeps planCyc) "A" ∧
    ¬ ∃ x, OnCycle (buildDeps planCyc) x ∧
        cycleMsg x ∈ check_dependency_cycles planCyc := by
  have hcheck : check_dependency_cycles planCyc = [cycleMsg "A"] := by decide
  have hnoA : ∀ z, ¬ edgeOf (buildDeps planCyc) z "A" := by
    intro z hz
    have hkeys : (buildDeps planCyc).map Prod.fst = ["A", "B", "C"] := by decide
    have hzkey := edge_src_mem_keys hz
    rw [hkeys] at hzkey
    have hzcases : z = "A" ∨ z = "B" ∨ z = "C" := by simpa using hzkey
    rcases hzcases with h | h | h <;> subst h <;> revert hz <;> decide
  have hAnot : ¬ OnCycle (buildDeps planCyc) "A" := by
    rintro ⟨y, hAy, hyA⟩
    rcases Relation.ReflTransGen.cases_tail hyA with heq | ⟨c, _, hcA⟩
    · subst heq
      exact hnoA "A" hAy
    · exact hnoA c hcA
  refine ⟨hcheck, planCyc_onCycle_B, hAnot, ?_⟩
  rintro ⟨x, hx, hmem⟩
  have hxkey := edge_src_mem_keys hx.choose_spec.1
  have hkeys : (buildDeps planCyc).map Prod.fst = ["A", "B", "C"] := by decide
  rw [hkeys] at hxkey
  rw [hcheck] at hmem
  have hxcases : x = "A" ∨ x = "B" ∨ x = "C" := by simpa using hxkey
  rcases hxcases with h | h | h <;> subst h
  · exact hAnot hx
  · exact absurd (by simpa using hmem) (by decide : ¬ cycleMsg "B" = cycleMsg "A")
  · exact absurd (by simpa using hmem) (by decide : ¬ cycleMsg "C" = cycleMsg "A")

/-- C6 (amended): on every acyclic dependency graph the cycle check reports
no errors, and on every graph containing a cycle it reports at least one
error — but the reported task is the DFS root that reached the cycle, which
need not itself lie on the cycle. -/
theorem cycle_check_amended (plan : PlanData) :
    ((∀ x, ¬ OnCycle (buildDeps plan) x) → check_dependency_cycles plan = []) ∧
    ((∃ x, OnCycle (buildDeps plan) x) → check_dependency_cycles plan ≠ []) := by
  constructor
  · intro hacy
    rw [check_dependency_cycles]
    exact checkCyclesOf_sound hacy
  · intro hcyc
    rw [check_dependency_cycles]
    exact checkCyclesOf_complete hcyc

/-- C6 amended witness: the acyclic `planDup` graph yields no cycle errors;
the cyclic `planCyc` graph yields at least one. -/
theorem cycle_check_amended_witness :
    check_dependency_cycles planDup = [] ∧ check_dependency_cycles planCyc ≠ [] :=
  ⟨(cycle_check_amended planDup).1 planDup_acyclic,
   (cycle_check_amended planCyc).2 ⟨"B", planCyc_onCycle_B⟩⟩

/-- C7 counterexample: `planDup` declares the id `A` twice and references the
undeclared id `ghost`, yet the full validation error list (structure checks
followed by the cycle check, as assembled in `main`) is empty — neither
defect is reported at all. -/
theorem validation_missing_checks_counterexample :
    HasDuplicateId planDup ∧ HasUnresolvedRef planDup ∧
    validationErrors planDup = [] := by
  refine ⟨by decide, ?_, by decide⟩
  refine ⟨wfTaskData "B" ["ghost"], by decide, "ghost", by decide, by decide⟩

/-- C7 (amended): validation checks only structural field presence and
dependency cycles; a plan that passes the field checks and whose dependency
graph is acyclic yields an empty error list even when it contains duplicate
task ids or dependency references to nonexistent tasks — duplicates and
unresolved references are never reported. -/
theorem validation_missing_checks_amended (plan : PlanData)
    (hstruct : validate_plan_structure plan = [])
    (hacy : ∀ x, ¬ OnCycle (buildDeps plan) x) :
    validationErrors plan = [] := by
  rw [validationErrors, hstruct, check_dependency_cycles, checkCyclesOf_sound hacy]
  rfl

/-- C7 amended witness: `planDup`, with a duplicate id and an unresolved
reference, passes validation with an empty error list. -/
theorem validation_missing_checks_amended_witness :
    validationErrors planDup = [] :=
  validation_missing_checks_amended planDup (by decide) planDup_acyclic

end AgenticWorkflow
